import Mathlib

/-!
# Verification of the commitgen message pipeline

Shallow embedding of the commit-message generation tool: the Conventional
Commits validator, the model-output extractor, the diff-based type
inferencer, the message repairer, the diff clamp, the Ollama chat retry
loop, and the workflow orchestrator.  Every definition is translated from
the TypeScript source (`validation.ts`, `util.ts`, `ollama.ts`,
`workflow.ts`, `exit-codes.ts`); strings are modelled as Lean `String`
with the heavy lifting done on `List Char`.  JavaScript-specific behaviour
(regex backtracking, `??`, truthiness of the empty string, `JSON.parse`)
is reproduced explicitly; ASCII inputs are assumed where JavaScript's
Unicode-aware helpers (`trim`, `toLowerCase`, `\s`) would differ.
-/

namespace Commitgen

/-- JavaScript whitespace (`\s`, `String.prototype.trim`) restricted to the
ASCII range: space, tab, newline, carriage return, vertical tab, form feed. -/
def wsChar (c : Char) : Bool :=
  c = ' ' || c = '\t' || c = '\n' || c = '\r' || c = '\x0b' || c = '\x0c'

/-- Drop leading whitespace. -/
def dropLeadWs (l : List Char) : List Char := l.dropWhile wsChar

/-- Drop trailing whitespace (`/\s+$/`). -/
def dropTrailWs (l : List Char) : List Char := (l.reverse.dropWhile wsChar).reverse

/-- JavaScript `String.prototype.trim` on a char list. -/
def trimL (l : List Char) : List Char := dropTrailWs (dropLeadWs l)

/-- JavaScript `String.prototype.trim` (ASCII fragment). -/
def strTrim (s : String) : String := (trimL s.toList).asString

/-- Strip a trailing run of spaces and tabs only (`/[ \t]+$/` per line in
`normalizeMessage`). -/
def dropTrailSpTab (l : List Char) : List Char :=
  (l.reverse.dropWhile (fun c => c = ' ' || c = '\t')).reverse

/-- `input.replace(/\r\n?/g, "\n")`: every CRLF pair and every lone CR
becomes a single LF. -/
def fixCR : List Char → List Char
  | [] => []
  | '\r' :: '\n' :: rest => '\n' :: fixCR rest
  | '\r' :: rest => '\n' :: fixCR rest
  | c :: rest => c :: fixCR rest

/-- `String.prototype.split("\n")`: always returns at least one (possibly
empty) segment. -/
def splitNL : List Char → List (List Char)
  | [] => [[]]
  | c :: rest =>
    if c = '\n' then [] :: splitNL rest
    else
      match splitNL rest with
      | l :: ls => (c :: l) :: ls
      | [] => [[c]]

/-- `Array.prototype.join("\n")`. -/
def joinNL (ls : List (List Char)) : List Char := List.intercalate ['\n'] ls

/-- Substring test (`String.prototype.includes`), on char lists. -/
def hasSubstr (h n : List Char) : Bool :=
  if n.isPrefixOf h then true
  else
    match h with
    | [] => false
    | _ :: t => hasSubstr t n

/-- `String.prototype.endsWith`, on char lists. -/
def endsL (h n : List Char) : Bool := n.reverse.isPrefixOf h.reverse

mutual
/-- Collapse every maximal whitespace run to a single space
(`.replace(/\s+/g, " ")`). -/
def collapseWsL : List Char → List Char
  | [] => []
  | c :: rest => if wsChar c then ' ' :: collapseSkip rest else c :: collapseWsL rest
/-- Helper of `collapseWsL`: inside a whitespace run that already emitted
its single space. -/
def collapseSkip : List Char → List Char
  | [] => []
  | c :: rest => if wsChar c then collapseSkip rest else c :: collapseWsL rest
end

mutual
/-- Collapse every maximal whitespace run to a single hyphen
(`.replace(/\s+/g, "-")`, used by `normalizeScope`). -/
def hyphenWsL : List Char → List Char
  | [] => []
  | c :: rest => if wsChar c then '-' :: hyphenSkip rest else c :: hyphenWsL rest
/-- Helper of `hyphenWsL`: inside a whitespace run that already emitted
its single hyphen. -/
def hyphenSkip : List Char → List Char
  | [] => []
  | c :: rest => if wsChar c then hyphenSkip rest else c :: hyphenWsL rest
end

/-- ASCII lower-casing, as `String.prototype.toLowerCase` on ASCII input. -/
def lowerL (l : List Char) : List Char := l.map Char.toLower

/-! ## Message Grammar & Validator (`validation.ts`) -/

/-- The fixed `ALLOWED_TYPES` vocabulary. -/
def allowedTypes : List String :=
  ["feat", "fix", "chore", "refactor", "docs", "test", "perf", "build", "ci"]

/-- `isAllowedType`: membership in the fixed `ALLOWED_TYPES_SET`. -/
def isAllowedType (value : String) : Bool := allowedTypes.contains value

/-- `ValidationResult`: `{ ok: true }` or `{ ok: false, reason }`. -/
inductive ValidationResult where
  | ok : ValidationResult
  | invalid (reason : String) : ValidationResult
deriving DecidableEq, Repr

/-- `ValidationResult.ok` as a Bool (the `.ok` field of the TS object). -/
def ValidationResult.isOk : ValidationResult → Bool
  | .ok => true
  | .invalid _ => false

/-- Reason string carried by a failed validation (`""` for success). -/
def ValidationResult.reason : ValidationResult → String
  | .ok => ""
  | .invalid r => r

/-- `normalizeMessage` on char lists: unify line endings, strip trailing
spaces/tabs per line, drop leading and trailing blank lines, re-join. -/
def normalizeL (input : List Char) : List Char :=
  let lines := (splitNL (fixCR input)).map dropTrailSpTab
  let lines := lines.dropWhile (· = [])
  let lines := (lines.reverse.dropWhile (· = [])).reverse
  joinNL lines

/-- `normalizeMessage` from `validation.ts`. -/
def normalizeMessage (input : String) : String := (normalizeL input.toList).asString

/-- Consume the optional fence language tag (`(?:json|txt|text)?`,
case-insensitive, alternatives tried left to right; at most one can match
as a prefix). Returns the remainder when a tag was consumed. -/
def stripFenceTag (r : List Char) : Option (List Char) :=
  if lowerL (r.take 4) = "json".toList then some (r.drop 4)
  else if lowerL (r.take 3) = "txt".toList then some (r.drop 3)
  else if lowerL (r.take 4) = "text".toList then some (r.drop 4)
  else none

/-- Whether the remainder ends with a closing triple backtick. -/
def fenceClose (r : List Char) : Bool := endsL r ['`', '`', '`']

/-- Capture group of the fence regex after trimming: since `\s*` sits on
both sides of the lazy group and the capture is `.trim()`ed afterwards,
the result is the trim of everything before the closing backticks. -/
def fenceBody (r : List Char) : List Char := trimL (r.take (r.length - 3))

/-- `stripWrappingCodeFence`: match
`/^```(?:json|txt|text)?\s*([\s\S]*?)\s*```$/i` against the trimmed input
and return the trimmed capture, else the trimmed input.  Regex
backtracking is reproduced: a consumed tag is given back when the
remainder then lacks a closing fence. -/
def stripWrappingCodeFence (input : String) : String :=
  let t := trimL input.toList
  if ['`', '`', '`'].isPrefixOf t then
    let r := t.drop 3
    match stripFenceTag r with
    | some r1 =>
      if fenceClose r1 then (fenceBody r1).asString
      else if fenceClose r then (fenceBody r).asString
      else t.asString
    | none =>
      if fenceClose r then (fenceBody r).asString
      else t.asString
  else t.asString

/-- Strict subject grammar `/^([a-z]+)(\([^)]+\))?!?:\s(.+)$/` applied to a
single-line subject.  Backtracking is deterministic here: the type is the
maximal lowercase run (shortening it never helps), the scope is everything
up to the first `)`, and the optional parts are taken when present.
Returns (type, scope?, description). -/
def parseSubjectCC (subject : List Char) : Option (List Char × Option (List Char) × List Char) :=
  let ty := subject.takeWhile Char.isLower
  if ty.isEmpty then none
  else
    let rest := subject.drop ty.length
    let scopePart : Option (Option (List Char) × List Char) :=
      match rest with
      | '(' :: r =>
        let content := r.takeWhile (· ≠ ')')
        match r.drop content.length with
        | ')' :: r3 => if content.isEmpty then none else some (some content, r3)
        | _ => none
      | _ => some (none, rest)
    match scopePart with
    | none => none
    | some (scope, rest2) =>
      let rest3 := match rest2 with
        | '!' :: r => r
        | r => r
      match rest3 with
      | ':' :: c :: ds => if wsChar c && !ds.isEmpty then some (ty, scope, ds) else none
      | _ => none

/-- The subject line of a normalized message: first line, trimmed
(`normalized.split("\n")[0].trim()`). -/
def validationSubject (normalized : List Char) : List Char :=
  trimL ((splitNL normalized).headD [])

/-- `validateMessage` from `validation.ts`: normalize, then fail in order on
empty message, fence, empty subject, overlong subject, trailing period,
non-Conventional format, unknown type. -/
def validateMessage (message : String) : ValidationResult :=
  let normalized := normalizeL message.toList
  if normalized.isEmpty then .invalid "Message is empty"
  else if hasSubstr normalized ['`', '`', '`'] then .invalid "No markdown/code fences"
  else
    let subject := validationSubject normalized
    if subject.isEmpty then .invalid "Subject line is empty"
    else if subject.length > 72 then .invalid "Subject line > 72 chars"
    else if endsL subject ['.'] then .invalid "Subject should not end with a period"
    else
      match parseSubjectCC subject with
      | none => .invalid "Not Conventional Commits format"
      | some (ty, _, _) =>
        if isAllowedType ty.asString then .ok
        else .invalid ("Type must be one of: " ++ String.intercalate ", " allowedTypes)

/-! ## Diff-based Type Inferencer (`validation.ts`) -/

/-- `String.prototype.startsWith`. -/
def strStarts (s p : String) : Bool := p.toList.isPrefixOf s.toList

/-- `String.prototype.endsWith`. -/
def strEnds (s p : String) : Bool := endsL s.toList p.toList

/-- `String.prototype.includes`. -/
def strHas (s p : String) : Bool := hasSubstr s.toList p.toList

/-- Find the separator ` b/` of a `diff --git` header.  The lazy `(.+?)`
before ` b/` needs at least one character, and the trailing `(.+)$` needs a
non-empty remainder; an empty remainder means the string ended, so no later
occurrence can exist. -/
def findSep : List Char → Option (List Char)
  | ' ' :: 'b' :: '/' :: rest => if rest.isEmpty then none else some rest
  | _ :: rest => findSep rest
  | [] => none

/-- One line matched against `/^diff --git a\/(.+?) b\/(.+)$/`; yields the
second capture (the new path). -/
def parseDiffLine (l : List Char) : Option (List Char) :=
  if "diff --git a/".toList.isPrefixOf l then
    match l.drop 13 with
    | [] => none
    | _ :: cs => findSep cs
  else none

/-- All new paths collected from the diff headers, trimmed (empty ones are
skipped by the `if (file)` truthiness test) and lower-cased. -/
def diffFiles (diff : String) : List String :=
  (splitNL diff.toList).filterMap (fun l =>
    match parseDiffLine l with
    | none => none
    | some tail =>
      let f := trimL tail
      if f.isEmpty then none else some (lowerL f).asString)

/-- `isDocumentationFile`. -/
def isDocumentationFile (path : String) : Bool :=
  strStarts path "docs/"
    || strEnds path ".md"
    || strEnds path ".mdx"
    || strEnds path ".rst"
    || strHas path "/docs/"

/-- `isTestFile`. -/
def isTestFile (path : String) : Bool :=
  strHas path "/test/"
    || strHas path "/tests/"
    || strHas path "__tests__"
    || strEnds path ".spec.ts"
    || strEnds path ".test.ts"
    || strEnds path ".spec.js"
    || strEnds path ".test.js"

/-- `isCiFile`. -/
def isCiFile (path : String) : Bool :=
  strStarts path ".github/workflows/"
    || strStarts path ".gitlab-ci"
    || strStarts path ".circleci/"
    || strStarts path "azure-pipelines"

/-- `isBuildFile`. -/
def isBuildFile (path : String) : Bool :=
  path = "package-lock.json"
    || path = "yarn.lock"
    || path = "pnpm-lock.yaml"
    || path = "package.json"
    || strEnds path "/dockerfile"
    || strEnds path "/docker-compose.yml"

/-- `inferTypeFromDiff`: collect the files, return `none` when there are
none, else the first of docs/test/ci/build for which every file qualifies. -/
def inferTypeFromDiff (diff : String) : Option String :=
  let files := diffFiles diff
  if files.isEmpty then none
  else if files.all isDocumentationFile then some "docs"
  else if files.all isTestFile then some "test"
  else if files.all isCiFile then some "ci"
  else if files.all isBuildFile then some "build"
  else none

/-! ## Message Repairer (`validation.ts`) -/

/-- `RepairOptions`. -/
structure RepairOptions where
  message : String
  diff : String
  forcedType : Option String
  scope : Option String

/-- `RepairResult`. -/
structure RepairResult where
  message : String
  didRepair : Bool
deriving DecidableEq, Repr

/-- `normalizeScope`: a nullish or empty scope is dropped; otherwise trim,
collapse whitespace runs to hyphens, strip parentheses; empty result is
dropped. -/
def normalizeScope (scope : Option String) : Option String :=
  match scope with
  | none => none
  | some s =>
    if s = "" then none
    else
      let compact := (hyphenWsL (trimL s.toList)).filter (fun c => c ≠ '(' && c ≠ ')')
      if compact.isEmpty then none else some compact.asString

/-- `parseTypedSubject`: `/^([A-Za-z]+)(?:\(([^)]+)\))?!?:\s*(.+)$/` with
the type lower-cased and scope/description trimmed.  Because `\s*` sits
between the colon and the lazy-free `(.+)`, the trimmed capture equals the
trim of everything after the colon, and a match exists iff something
follows the colon. -/
def parseTypedSubject (subject : List Char) : Option (String × Option String × String) :=
  let ty := subject.takeWhile Char.isAlpha
  if ty.isEmpty then none
  else
    let rest := subject.drop ty.length
    let scopePart : Option (Option (List Char) × List Char) :=
      match rest with
      | '(' :: r =>
        let content := r.takeWhile (· ≠ ')')
        match r.drop content.length with
        | ')' :: r3 => if content.isEmpty then none else some (some content, r3)
        | _ => none
      | _ => some (none, rest)
    match scopePart with
    | none => none
    | some (scope, rest2) =>
      let rest3 := match rest2 with
        | '!' :: r => r
        | r => r
      match rest3 with
      | ':' :: after =>
        if after.isEmpty then none
        else some ((lowerL ty).asString, scope.map (fun s => (trimL s).asString), (trimL after).asString)
      | _ => none

/-- `parseLooseTypedSubject`: `/^([A-Za-z]+)\s*[-:]\s*(.+)$/`. -/
def parseLooseTypedSubject (subject : List Char) : Option (String × String) :=
  let ty := subject.takeWhile Char.isAlpha
  if ty.isEmpty then none
  else
    let rest := (subject.drop ty.length).dropWhile wsChar
    match rest with
    | c :: after =>
      if (c = '-' || c = ':') && !after.isEmpty then
        some ((lowerL ty).asString, (trimL after).asString)
      else none
    | [] => none

/-- `normalizeDescription`: trim, drop one trailing period, collapse
whitespace runs, substitute the fallback text when empty. -/
def normalizeDescription (description : String) : String :=
  let t := trimL description.toList
  let t2 := if endsL t ['.'] then t.take (t.length - 1) else t
  let c := collapseWsL t2
  if c.isEmpty then "update project files" else c.asString

/-- Characters stripped from the subject's edges
(`.replace(/^["'`]+|["'`]+$/g, "")`). -/
def quoteChar (c : Char) : Bool := c = '"' || c = '\'' || c = '`'

/-- Strip the leading and trailing quote/backtick runs. -/
def stripEdgeQuotes (l : List Char) : List Char :=
  ((l.dropWhile quoteChar).reverse.dropWhile quoteChar).reverse

/-- The typed/loose subject-parsing stage of `repairMessage` (its local
`selectedType`/`selectedScope`/`description` right before the
forced/inferred-type precedence step): a typed match keeps its type only
when allowed, a loose match is used only when its type is allowed, and
otherwise the whole subject is the description. -/
def repairSubjectParse (originalSubject : List Char) :
    Option String × Option String × String :=
  match parseTypedSubject originalSubject with
  | some (ty, scope, desc) => ((if isAllowedType ty then some ty else none), scope, desc)
  | none =>
    match parseLooseTypedSubject originalSubject with
    | some (ty, desc) =>
      if isAllowedType ty then (some ty, none, desc)
      else (none, none, originalSubject.asString)
    | none => (none, none, originalSubject.asString)

/-- `repairMessage` from `validation.ts`. -/
def repairMessage (options : RepairOptions) : RepairResult :=
  let original := normalizeL (stripWrappingCodeFence options.message).toList
  if original.isEmpty then ⟨original.asString, false⟩
  else
    let lines := splitNL original
    let originalSubject := trimL (stripEdgeQuotes (trimL (lines.headD [])))
    let body := normalizeL (joinNL (lines.drop 1))
    let bodyBlock := if body.isEmpty then [] else '\n' :: '\n' :: body
    let forcedType := options.forcedType
    let normalizedScope := normalizeScope options.scope
    let inferredType := match forcedType with
      | some t => some t
      | none => inferTypeFromDiff options.diff
    let parsed := repairSubjectParse originalSubject
    let selectedType := match forcedType with
      | some t => some t
      | none =>
        match parsed.1 with
        | some t => some t
        | none => inferredType
    let selectedScope := match normalizedScope with
      | some s => some s
      | none => parsed.2.1
    let description := normalizeDescription parsed.2.2
    let repairedSubject := match selectedType with
      | some ty =>
        ty.toList
          ++ (match selectedScope with
              | some s => if !s.isEmpty then '(' :: s.toList ++ [')'] else []
              | none => [])
          ++ ':' :: ' ' :: description.toList
      | none => description.toList
    let repaired := normalizeL (repairedSubject ++ bodyBlock)
    ⟨repaired.asString, repaired != original⟩

/-- A Conventional Commits subject assembled from its parts,
`type(scope): description` or `type: description`; used to state claims
about messages that already satisfy the subject grammar. -/
def mkCC (ty : String) (scope : Option String) (desc : String) : String :=
  (ty.toList
    ++ (match scope with
        | some s => '(' :: (s.toList ++ [')'])
        | none => [])
    ++ ':' :: ' ' :: desc.toList).asString

/-- The spec's reading of `repairMessage` on a non-empty message, stated
as one functional formula: final type is `forcedType`, else the type
detected in the subject, else the diff-inferred type; an explicit
(normalized) scope overrides the detected one; the description is
normalized with the `"update project files"` fallback; reassembly and
`didRepair` as in the code.  `repairMessage` is proved to refine this
formula. -/
def specRepair (o : RepairOptions) : RepairResult :=
  let original := normalizeL (stripWrappingCodeFence o.message).toList
  let lines := splitNL original
  let subject := trimL (stripEdgeQuotes (trimL (lines.headD [])))
  let parsed := repairSubjectParse subject
  let finalType := o.forcedType.orElse fun _ =>
    parsed.1.orElse fun _ => inferTypeFromDiff o.diff
  let finalScope := (normalizeScope o.scope).orElse fun _ => parsed.2.1
  let description := normalizeDescription parsed.2.2
  let body := normalizeL (joinNL (lines.drop 1))
  let bodyBlock := if body.isEmpty then [] else '\n' :: '\n' :: body
  let repairedSubject := match finalType with
    | some ty =>
      ty.toList
        ++ (match finalScope with
            | some s => if !s.isEmpty then '(' :: s.toList ++ [')'] else []
            | none => [])
        ++ ':' :: ' ' :: description.toList
    | none => description.toList
  let repaired := normalizeL (repairedSubject ++ bodyBlock)
  ⟨repaired.asString, repaired != original⟩

/-! ## JSON parsing (`JSON.parse` as used by the Output Extractor)

A JSON value as produced by `JSON.parse`.  Number payloads are not
retained (the extractor only ever checks whether the `message` field is a
string).  `\uXXXX` escapes are mapped through `Char.ofNat`; surrogate-pair
combining is not modelled (no claim exercises it). -/
inductive Json where
  | null : Json
  | bool (b : Bool) : Json
  | num : Json
  | str (s : String) : Json
  | arr (elems : List Json) : Json
  | obj (fields : List (String × Json)) : Json
deriving Repr

/-- JSON insignificant whitespace. -/
def jsonWs (c : Char) : Bool := c = ' ' || c = '\t' || c = '\n' || c = '\r'

/-- Hex digit value. -/
def hexVal (c : Char) : Option Nat :=
  if '0' ≤ c ∧ c ≤ '9' then some (c.toNat - '0'.toNat)
  else if 'a' ≤ c ∧ c ≤ 'f' then some (c.toNat - 'a'.toNat + 10)
  else if 'A' ≤ c ∧ c ≤ 'F' then some (c.toNat - 'A'.toNat + 10)
  else none

/-- Body of a JSON string after the opening quote: content plus the rest
after the closing quote.  Control characters below U+0020 are rejected,
escapes are decoded. -/
def parseJsonString : List Char → Option (List Char × List Char)
  | [] => none
  | '"' :: rest => some ([], rest)
  | '\\' :: e :: rest =>
    match e with
    | '"' => (parseJsonString rest).map (fun (s, r) => ('"' :: s, r))
    | '\\' => (parseJsonString rest).map (fun (s, r) => ('\\' :: s, r))
    | '/' => (parseJsonString rest).map (fun (s, r) => ('/' :: s, r))
    | 'b' => (parseJsonString rest).map (fun (s, r) => ('\x08' :: s, r))
    | 'f' => (parseJsonString rest).map (fun (s, r) => ('\x0c' :: s, r))
    | 'n' => (parseJsonString rest).map (fun (s, r) => ('\n' :: s, r))
    | 'r' => (parseJsonString rest).map (fun (s, r) => ('\r' :: s, r))
    | 't' => (parseJsonString rest).map (fun (s, r) => ('\t' :: s, r))
    | 'u' =>
      match rest with
      | a :: b :: c :: d :: rest' =>
        match hexVal a, hexVal b, hexVal c, hexVal d with
        | some x, some y, some z, some w =>
          (parseJsonString rest').map
            (fun (s, r) => (Char.ofNat (((x * 16 + y) * 16 + z) * 16 + w) :: s, r))
        | _, _, _, _ => none
      | _ => none
    | _ => none
  | c :: rest =>
    if c.toNat < 0x20 then none
    else (parseJsonString rest).map (fun (s, r) => (c :: s, r))

/-- One-or-more decimal digits; returns the rest. -/
def parseDigits (l : List Char) : Option (List Char) :=
  let ds := l.takeWhile Char.isDigit
  if ds.isEmpty then none else some (l.drop ds.length)

/-- A JSON number (`-?(0|[1-9][0-9]*)(\.[0-9]+)?([eE][+-]?[0-9]+)?`);
returns the rest. -/
def parseJsonNumber (l : List Char) : Option (List Char) :=
  let l1 := match l with
    | '-' :: r => r
    | r => r
  match l1 with
  | '0' :: r =>
    let afterInt := r
    parseJsonNumberTail afterInt
  | c :: _ =>
    if c.isDigit then
      match parseDigits l1 with
      | some afterInt => parseJsonNumberTail afterInt
      | none => none
    else none
  | [] => none
where
  /-- Optional fraction and exponent. -/
  parseJsonNumberTail (l : List Char) : Option (List Char) :=
    let afterFrac := match l with
      | '.' :: r => parseDigits r
      | r => some r
    match afterFrac with
    | none => none
    | some l2 =>
      match l2 with
      | 'e' :: r | 'E' :: r =>
        let r1 := match r with
          | '+' :: r' => r'
          | '-' :: r' => r'
          | r' => r'
        parseDigits r1
      | r => some r

mutual
/-- A JSON value with surrounding-whitespace skipping; fuel bounds the
recursion depth (callers supply more fuel than any input can consume). -/
def parseJsonValue : Nat → List Char → Option (Json × List Char)
  | 0, _ => none
  | fuel + 1, cs =>
    match cs.dropWhile jsonWs with
    | 'n' :: 'u' :: 'l' :: 'l' :: r => some (.null, r)
    | 't' :: 'r' :: 'u' :: 'e' :: r => some (.bool true, r)
    | 'f' :: 'a' :: 'l' :: 's' :: 'e' :: r => some (.bool false, r)
    | '"' :: r => (parseJsonString r).map (fun (s, rest) => (.str s.asString, rest))
    | '[' :: r =>
      (match r.dropWhile jsonWs with
       | ']' :: r2 => some (.arr [], r2)
       | _ => (parseJsonArrayItems fuel r).map (fun (xs, rest) => (.arr xs, rest)))
    | '{' :: r =>
      (match r.dropWhile jsonWs with
       | '}' :: r2 => some (.obj [], r2)
       | _ => (parseJsonObjectItems fuel r).map (fun (fs, rest) => (.obj fs, rest)))
    | other => (parseJsonNumber other).map (fun rest => (.num, rest))

/-- Comma-separated array elements up to the closing bracket. -/
def parseJsonArrayItems : Nat → List Char → Option (List Json × List Char)
  | 0, _ => none
  | fuel + 1, cs =>
    match parseJsonValue fuel cs with
    | none => none
    | some (v, rest) =>
      match rest.dropWhile jsonWs with
      | ',' :: r => (parseJsonArrayItems fuel r).map (fun (xs, rest') => (v :: xs, rest'))
      | ']' :: r => some ([v], r)
      | _ => none

/-- Comma-separated `"key": value` members up to the closing brace. -/
def parseJsonObjectItems : Nat → List Char → Option (List (String × Json) × List Char)
  | 0, _ => none
  | fuel + 1, cs =>
    match cs.dropWhile jsonWs with
    | '"' :: r =>
      match parseJsonString r with
      | none => none
      | some (key, rest) =>
        match rest.dropWhile jsonWs with
        | ':' :: r2 =>
          match parseJsonValue fuel r2 with
          | none => none
          | some (v, rest2) =>
            match rest2.dropWhile jsonWs with
            | ',' :: r3 =>
              (parseJsonObjectItems fuel r3).map
                (fun (fs, rest') => ((key.asString, v) :: fs, rest'))
            | '}' :: r3 => some ([(key.asString, v)], r3)
            | _ => none
        | _ => none
    | _ => none
end

/-- `JSON.parse`: parse one value and require only whitespace after it. -/
def jsonParse (input : String) : Option Json :=
  let cs := input.toList
  match parseJsonValue (2 * cs.length + 2) cs with
  | none => none
  | some (v, rest) => if (rest.dropWhile jsonWs).isEmpty then some v else none

/-- Property access on a parsed object: JavaScript keeps the last of
duplicate keys. -/
def jsonLookup (fields : List (String × Json)) (key : String) : Option Json :=
  ((fields.filter (fun f => f.1 = key)).getLast?).map (fun f => f.2)

/-- `parseMessageFromJson`: `JSON.parse` the input, require a non-null
object (arrays and primitives have no `message` property / fail the
`typeof` checks) with a string-typed `message` field. -/
def parseMessageFromJson (input : String) : Option String :=
  match jsonParse input with
  | some (.obj fields) =>
    match jsonLookup fields "message" with
    | some (.str s) => some s
    | _ => none
  | _ => none

/-- `parseMessageFromEmbeddedJson`: the slice from the first `{` to the
last `}`, fed to `parseMessageFromJson`. -/
def parseMessageFromEmbeddedJson (input : String) : Option String :=
  let cs := input.toList
  match cs.findIdx? (· = '{') with
  | none => none
  | some start =>
    match cs.reverse.findIdx? (· = '}') with
    | none => none
    | some revIdx =>
      let stop := cs.length - 1 - revIdx
      if stop ≤ start then none
      else parseMessageFromJson ((cs.drop start).take (stop + 1 - start)).asString

/-- `extractMessageFromModelOutput`: strip one wrapping fence, try the
whole-text JSON parse, then the embedded-JSON parse, fall back to the
fence-stripped text; run the winner through one more fence strip and
`normalizeMessage`.  Total by construction. -/
def extractMessageFromModelOutput (raw : String) : String :=
  let noFence := stripWrappingCodeFence raw
  let jsonMessage := match parseMessageFromJson noFence with
    | some m => some m
    | none => parseMessageFromEmbeddedJson noFence
  let candidate := jsonMessage.getD noFence
  normalizeMessage (stripWrappingCodeFence candidate)

/-! ## Diff clamp (`util.ts`) -/

/-- `"\n\n--- DIFF TRUNCATED ---\n\n"`. -/
def diffTruncationMarker : String := "\n\n--- DIFF TRUNCATED ---\n\n"

/-- `clampDiff`.  `maxChars` is a JavaScript number: `none` stands for a
non-finite value (NaN or an infinity), `some i` for a finite value already
taken through `Math.floor`.  The head/tail split point uses exact
`(available * 7) / 10` for `Math.floor(available * 0.7)`; a one-ulp float
deviation would only move the split point, never the stated lengths. -/
def clampDiff (diff : String) (maxChars : Option Int) : String :=
  let source := diff.toList
  let limit : Nat := match maxChars with
    | none => 0
    | some i => i.toNat
  if limit = 0 then ""
  else if source.length ≤ limit then diff
  else if limit ≤ diffTruncationMarker.length + 20 then (source.take limit).asString
  else
    let available := limit - diffTruncationMarker.length
    let headSize := max 1 ((available * 7) / 10)
    let tailSize := max 1 (available - headSize)
    ((source.take headSize) ++ diffTruncationMarker.toList
      ++ source.drop (source.length - tailSize)).asString

/-! ## Ollama chat retry loop (`ollama.ts`) -/

/-- `OllamaErrorCode`. -/
inductive OllamaErrorCode where
  | unreachable
  | timeout
  | httpError
  | modelNotFound
  | invalidResponse
deriving DecidableEq, Repr

/-- `OllamaError`: message, code, optional hint, optional HTTP status,
retryable flag. -/
structure OllamaError where
  message : String
  code : OllamaErrorCode
  hint : Option String := none
  status : Option Nat := none
  retryable : Bool := false
deriving DecidableEq, Repr

/-- One attempt's backend behaviour, as observed by `ollamaChat` after the
`fetch`/`res.json()` layer: a network timeout, an unreachable host, a
non-2xx HTTP response with its status and body text, or a 2xx response
whose parsed `message.content` is the given optional string. -/
inductive AttemptOutcome where
  | netTimeout (timeoutMs : Nat)
  | netUnreachable
  | httpError (status : Nat) (bodyText : String)
  | okContent (content : Option String)
deriving Repr

/-- The result of one attempt of `ollamaChat`'s `try` block (lines
150-194 of `ollama.ts`): either the content string or the thrown
`OllamaError`. -/
def attemptResult (model : String) : AttemptOutcome → Except OllamaError String
  | .netTimeout t =>
    .error { message := s!"Ollama request timed out ({t}ms).", code := .timeout,
             hint := some "Ensure Ollama is running and/or increase --timeout-ms.",
             retryable := true }
  | .netUnreachable =>
    .error { message := "Cannot reach Ollama.", code := .unreachable,
             hint := some "Run `ollama serve` and verify --host points to the local Ollama endpoint.",
             retryable := true }
  | .httpError status text =>
    if status = 404 && strHas (lowerL text.toList).asString "model" then
      .error { message := s!"Model \"{model}\" is not available in local Ollama.",
               code := .modelNotFound, status := some status,
               hint := some s!"Run `ollama pull {model}` and try again." }
    else
      .error { message := s!"Ollama error {status}: {text}", code := .httpError,
               status := some status, retryable := decide (500 ≤ status),
               hint := some "Check Ollama logs and confirm the local model can run." }
  | .okContent content =>
    match content with
    | some s =>
      if (trimL s.toList).isEmpty then
        .error { message := "Ollama returned an empty response.", code := .invalidResponse,
                 hint := some "Try a larger --timeout-ms, then retry generation." }
      else .ok s
    | none =>
      .error { message := "Ollama returned an empty response.", code := .invalidResponse,
               hint := some "Try a larger --timeout-ms, then retry generation." }

/-- `shouldRetry`: the retryable flag, or an HTTP error whose (truthy)
status is 500 or more. -/
def shouldRetry (error : OllamaError) : Bool :=
  error.retryable
    || (error.code = .httpError
        && (match error.status with
            | some s => decide (s ≠ 0) && decide (500 ≤ s)
            | none => false))

/-- The retry loop of `ollamaChat` starting at attempt index `attempt`
with `remaining` retries left.  Returns the final outcome, the number of
attempts made, and the backoff delays (ms) slept before each retry. -/
def chatAttempts (behavior : Nat → Except OllamaError String) :
    Nat → Nat → Except OllamaError String × Nat × List Nat
  | attempt, remaining =>
    match behavior attempt with
    | .ok s => (.ok s, 1, [])
    | .error e =>
      match remaining with
      | 0 => (.error e, 1, [])
      | r + 1 =>
        if shouldRetry e then
          ((chatAttempts behavior (attempt + 1) r).1,
           (chatAttempts behavior (attempt + 1) r).2.1 + 1,
           150 * (attempt + 1) :: (chatAttempts behavior (attempt + 1) r).2.2)
        else (.error e, 1, [])

/-- `ollamaChat` with the per-attempt backend behaviour abstracted:
`retries` is the configured retry budget (the code clamps it with
`Math.max(0, Math.floor(...))`, the identity on `Nat`). -/
def ollamaChat (retries : Nat) (behavior : Nat → Except OllamaError String) :
    Except OllamaError String × Nat × List Nat :=
  chatAttempts behavior 0 retries

/-! ## Exit codes (`exit-codes.ts`) -/

/-- `ExitCode`. -/
inductive ExitCode where
  | success
  | usageError
  | gitContextError
  | ollamaError
  | invalidAiOutput
  | gitCommitError
  | internalError
deriving DecidableEq, Repr

/-- Numeric process exit status of each `ExitCode`. -/
def ExitCode.toNat : ExitCode → Nat
  | .success => 0
  | .usageError => 1
  | .gitContextError => 2
  | .ollamaError => 3
  | .invalidAiOutput => 4
  | .gitCommitError => 5
  | .internalError => 6

/-- `EXIT_CODE_LABEL`. -/
def exitCodeLabel : ExitCode → String
  | .success => "SUCCESS"
  | .usageError => "USAGE_ERROR"
  | .gitContextError => "GIT_CONTEXT_ERROR"
  | .ollamaError => "OLLAMA_ERROR"
  | .invalidAiOutput => "INVALID_AI_OUTPUT"
  | .gitCommitError => "GIT_COMMIT_ERROR"
  | .internalError => "INTERNAL_ERROR"

/-! ## Workflow Orchestrator (`workflow.ts`)

The external collaborators (git subprocesses, the HTTP client, the
interactive prompter) are passed in as explicit data: an environment for
the precondition checks and the staged diff, a chat outcome per
generation, a commit outcome, and a script of user interactions.  Commit
invocations are counted so that "the commit collaborator is never
invoked" is expressible. -/

/-- `MessageSource`. -/
inductive MessageSource where
  | model
  | repaired
deriving DecidableEq, Repr

/-- `WorkflowOptions` (`maxChars` as in `clampDiff`). -/
structure WorkflowOptions where
  model : String := "llama3"
  host : String := "http://localhost:11434"
  maxChars : Option Int := some 16000
  type : Option String := none
  scope : Option String := none
  dryRun : Bool := false
  noVerify : Bool := false
  ci : Bool := false
  allowInvalid : Bool := false
  timeoutMs : Nat := 60000
  retries : Nat := 2

/-- The success variant of `WorkflowResult` (its `exitCode` is always
`Success`). -/
structure SuccessResult where
  message : String
  source : MessageSource
  committed : Bool
  cancelled : Bool
deriving DecidableEq, Repr

/-- `WorkflowError` / the error variant of `WorkflowResult`. -/
structure ErrorResult where
  exitCode : ExitCode
  code : String
  message : String
  hint : Option String
deriving DecidableEq, Repr

/-- `WorkflowResult`. -/
inductive WorkflowResult where
  | success (s : SuccessResult)
  | failure (e : ErrorResult)
deriving DecidableEq, Repr

/-- `Candidate`. -/
structure Candidate where
  message : String
  source : MessageSource
  validation : ValidationResult
deriving DecidableEq, Repr

/-- `generateCandidate`, given the raw chat reply: trim it, extract,
repair with the same diff/forced type/scope, normalize, validate, tag the
provenance. -/
def generateCandidate (diff : String) (opts : WorkflowOptions) (raw : String) : Candidate :=
  let raw := strTrim raw
  let extracted := extractMessageFromModelOutput raw
  let repaired := repairMessage
    { message := extracted, diff := diff, forcedType := opts.type, scope := opts.scope }
  let candidate := normalizeMessage repaired.message
  { message := candidate
    source := if repaired.didRepair then .repaired else .model
    validation := validateMessage candidate }

/-- The `WorkflowError` thrown by `ensureValid` for an invalid candidate. -/
def invalidOutputError (candidate : Candidate) : ErrorResult :=
  { exitCode := .invalidAiOutput
    code := exitCodeLabel .invalidAiOutput
    message := "AI output failed validation: " ++ candidate.validation.reason
    hint := some "Regenerate/edit the message or pass --allow-invalid to override." }

/-- `toErrorResult` on an `OllamaError` thrown by the chat call. -/
def ollamaErrorResult (e : OllamaError) : ErrorResult :=
  { exitCode := .ollamaError
    code := exitCodeLabel .ollamaError
    message := e.message
    hint := e.hint }

/-- The `WorkflowError` thrown by `commitMessage` when `gitCommit`
rejects. -/
def gitCommitErrorResult (message : String) : ErrorResult :=
  { exitCode := .gitCommitError
    code := exitCodeLabel .gitCommitError
    message := message
    hint := some "Resolve git hook or repository errors, then retry." }

/-- `runNonInteractive`, with the chat reply and the commit collaborator's
outcome supplied; also returns how many times the commit collaborator was
invoked. -/
def runNonInteractive (diff : String) (opts : WorkflowOptions)
    (chatReply : Except OllamaError String) (commitOutcome : Except String Unit) :
    WorkflowResult × Nat :=
  match chatReply with
  | .error e => (.failure (ollamaErrorResult e), 0)
  | .ok raw =>
    let candidate := generateCandidate diff opts raw
    if !candidate.validation.isOk && !opts.allowInvalid then
      (.failure (invalidOutputError candidate), 0)
    else if opts.dryRun then
      (.success { message := candidate.message, source := candidate.source,
                  committed := false, cancelled := false }, 0)
    else
      match commitOutcome with
      | .ok _ =>
        (.success { message := candidate.message, source := candidate.source,
                    committed := true, cancelled := false }, 1)
      | .error msg => (.failure (gitCommitErrorResult msg), 1)

/-- The five interactive menu entries. -/
inductive UserAction where
  | accept
  | edit
  | regen
  | dry
  | cancel
deriving DecidableEq, Repr

/-- One iteration of the interactive loop as scripted input: the chat
reply for this iteration's generation, the menu answer (`none` models an
aborted prompt, treated as cancel), and the edit prompt's answer (used
only for `edit`; `none` or the empty string models a declined edit). -/
structure Step where
  reply : Except OllamaError String
  action : Option UserAction
  edited : Option String
deriving Repr

/-- The accept/edit tail of one interactive iteration: re-validate the
final message; when invalid without the override, report and loop
(`continue`, whose re-entry into the loop is passed in as `retry`);
otherwise commit. -/
def runInteractiveCommit (opts : WorkflowOptions) (commitOutcome : Except String Unit)
    (retry : Option (WorkflowResult × Nat))
    (candidate : Candidate) (finalMessage : String) : Option (WorkflowResult × Nat) :=
  let validation := validateMessage finalMessage
  if !validation.isOk && !opts.allowInvalid then retry
  else
    match commitOutcome with
    | .ok _ =>
      some (.success
        { message := finalMessage
          source := if finalMessage = candidate.message then candidate.source else .repaired
          committed := true, cancelled := false }, 1)
    | .error msg => some (.failure (gitCommitErrorResult msg), 1)

/-- `runInteractive`: each loop iteration consumes one `Step`; the result
is `none` when the script runs out (the loop would keep prompting the
user).  Also counts commit invocations. -/
def runInteractive (diff : String) (opts : WorkflowOptions)
    (commitOutcome : Except String Unit) : List Step → Option (WorkflowResult × Nat)
  | [] => none
  | step :: rest =>
    match step.reply with
    | .error e => some (.failure (ollamaErrorResult e), 0)
    | .ok raw =>
      let candidate := generateCandidate diff opts raw
      match step.action with
      | none =>
        some (.success { message := candidate.message, source := candidate.source,
                         committed := false, cancelled := true }, 0)
      | some .cancel =>
        some (.success { message := candidate.message, source := candidate.source,
                         committed := false, cancelled := true }, 0)
      | some .regen => runInteractive diff opts commitOutcome rest
      | some .dry =>
        some (.success { message := candidate.message, source := candidate.source,
                         committed := false, cancelled := false }, 0)
      | some .accept =>
        runInteractiveCommit opts commitOutcome
          (runInteractive diff opts commitOutcome rest) candidate candidate.message
      | some .edit =>
        match step.edited with
        | none =>
          some (.success { message := candidate.message, source := candidate.source,
                           committed := false, cancelled := true }, 0)
        | some text =>
          if text = "" then
            some (.success { message := candidate.message, source := candidate.source,
                             committed := false, cancelled := true }, 0)
          else
            runInteractiveCommit opts commitOutcome
              (runInteractive diff opts commitOutcome rest) candidate (normalizeMessage text)

/-- The orchestrator's external collaborators for one invocation:
precondition answers, the staged diff, the per-generation chat replies
(one per generation attempt), the commit outcome, and the interactive
script. -/
structure WorkflowEnv where
  isGitRepo : Bool
  hasStagedChanges : Bool
  /-- Outcome of `ensureLocalModel` (throws an `OllamaError` on failure). -/
  modelCheck : Except OllamaError Unit
  stagedDiff : String
  /-- Outcome of `gitCommit`, when it is invoked. -/
  commitOutcome : Except String Unit

/-- `runWorkflow`: preconditions, then the non-interactive path (CI or
dry-run) with a single chat reply, or the interactive loop over the
script.  `none` only when an interactive script runs out. -/
def runWorkflow (opts : WorkflowOptions) (env : WorkflowEnv)
    (chatReply : Except OllamaError String) (script : List Step) :
    Option (WorkflowResult × Nat) :=
  if !env.isGitRepo then
    some (.failure { exitCode := .gitContextError, code := exitCodeLabel .gitContextError,
                     message := "Not a git repository.", hint := none }, 0)
  else if !env.hasStagedChanges then
    some (.failure { exitCode := .gitContextError, code := exitCodeLabel .gitContextError,
                     message := "No staged changes. Stage files first: git add <files>.",
                     hint := none }, 0)
  else
    match env.modelCheck with
    | .error e => some (.failure (ollamaErrorResult e), 0)
    | .ok _ =>
      let diff := clampDiff env.stagedDiff opts.maxChars
      if opts.ci || opts.dryRun then
        some (runNonInteractive diff opts chatReply env.commitOutcome)
      else
        runInteractive diff opts env.commitOutcome script

/-! ## Supporting lemmas -/

theorem toList_asString (l : List Char) : (List.asString l).toList = l := rfl

theorem length_asString (l : List Char) : (List.asString l).length = l.length := rfl

theorem asString_toList (s : String) : s.toList.asString = s := rfl

theorem toList_strAppend (a b : String) : (a ++ b).toList = a.toList ++ b.toList := rfl

theorem asString_inj {l m : List Char} (h : List.asString l = List.asString m) : l = m :=
  congrArg String.toList h

theorem fixCR_cons_ne (c : Char) (rest : List Char) (h : c ≠ '\r') :
    fixCR (c :: rest) = c :: fixCR rest := by
  rw [fixCR.eq_def]
  split
  · simp_all
  · simp_all
  · simp_all
  · rename_i heq
    injection heq with h1 h2
    subst h1; subst h2; rfl

theorem fixCR_no_cr (l : List Char) (h : ∀ c ∈ l, c ≠ '\r') : fixCR l = l := by
  induction l with
  | nil => rfl
  | cons c rest ih =>
    rw [fixCR_cons_ne c rest (h c (by simp))]
    rw [ih (fun x hx => h x (by simp [hx]))]

theorem splitNL_no_nl (l : List Char) (h : ∀ c ∈ l, c ≠ '\n') : splitNL l = [l] := by
  induction l with
  | nil => rfl
  | cons c rest ih =>
    simp only [splitNL, if_neg (h c (by simp)), ih (fun x hx => h x (by simp [hx]))]

theorem dropWhile_head_ne {p : Char → Bool} {l : List Char}
    (h : ∀ c, l.head? = some c → p c = false) : l.dropWhile p = l := by
  cases l with
  | nil => rfl
  | cons c rest => simp [List.dropWhile, h c rfl]

theorem trimL_eq_self {l : List Char}
    (h1 : ∀ c, l.head? = some c → wsChar c = false)
    (h2 : ∀ c, l.getLast? = some c → wsChar c = false) : trimL l = l := by
  unfold trimL dropLeadWs dropTrailWs
  rw [dropWhile_head_ne h1]
  rw [dropWhile_head_ne (by simpa using h2)]
  exact l.reverse_reverse

theorem trimL_fixed_lead {l : List Char} (h : trimL l = l) : dropLeadWs l = l := by
  have hsub1 : dropLeadWs l <:+ l := List.dropWhile_suffix _
  have hsub2 : (dropLeadWs l).reverse.dropWhile wsChar <:+ (dropLeadWs l).reverse :=
    List.dropWhile_suffix _
  have hlen2 := hsub2.length_le
  have hlen : l.length ≤ (dropLeadWs l).length := by
    have := congrArg List.length h
    simp only [trimL, dropTrailWs, List.length_reverse] at this
    simp only [List.length_reverse] at hlen2
    omega
  exact hsub1.eq_of_length (Nat.le_antisymm hsub1.length_le hlen)

theorem trimL_fixed_trail {l : List Char} (h : trimL l = l) : dropTrailWs l = l := by
  have hl := trimL_fixed_lead h
  unfold trimL at h
  rwa [hl] at h

theorem hasSubstr_notin {l n : List Char} {x : Char} (hx : x ∉ l) :
    hasSubstr l (x :: n) = false := by
  induction l with
  | nil => simp [hasSubstr, List.isPrefixOf]
  | cons c rest ih =>
    have hcx : (x == c) = false := by
      simp only [beq_eq_false_iff_ne]
      intro hxc; exact hx (by simp [hxc])
    simp only [hasSubstr, List.isPrefixOf, hcx, Bool.false_and, if_neg]
    exact ih (fun hm => hx (by simp [hm]))

theorem takeWhile_prefix_stop {p : Char → Bool} {xs ys : List Char} {y : Char}
    (hx : ∀ x ∈ xs, p x = true) (hy : p y = false) :
    (xs ++ y :: ys).takeWhile p = xs := by
  induction xs with
  | nil => simp [List.takeWhile, hy]
  | cons a as ih =>
    simp [List.takeWhile, hx a (by simp), ih (fun x hm => hx x (by simp [hm]))]

theorem dropTrailSpTab_eq_self {l : List Char}
    (h : ∀ c, l.getLast? = some c → (c = ' ' || c = '\t') = false) :
    dropTrailSpTab l = l := by
  unfold dropTrailSpTab
  rw [dropWhile_head_ne (by simpa using h)]
  exact l.reverse_reverse

theorem joinNL_single (l : List Char) : joinNL [l] = l := by
  simp [joinNL, List.intercalate]

theorem normalizeL_single {l : List Char}
    (hnl : ∀ c ∈ l, c ≠ '\n' ∧ c ≠ '\r')
    (hne : l ≠ [])
    (hlast : ∀ c, l.getLast? = some c → (c = ' ' || c = '\t') = false) :
    normalizeL l = l := by
  unfold normalizeL
  rw [fixCR_no_cr l (fun c hc => (hnl c hc).2)]
  rw [splitNL_no_nl l (fun c hc => (hnl c hc).1)]
  simp only [List.map]
  rw [dropTrailSpTab_eq_self hlast]
  simp [hne, joinNL_single]

theorem char_toLower_of_isLower (c : Char) (h : c.isLower = true) : c.toLower = c := by
  simp only [Char.isLower, Bool.and_eq_true, decide_eq_true_eq] at h
  simp only [Char.toLower]
  split
  · rename_i hle
    obtain ⟨h1, h2⟩ := h
    obtain ⟨h3, h4⟩ := hle
    exfalso
    have h1' : (97 : Nat) ≤ c.val.toNat := h1
    have h4' : c.toNat ≤ (90 : Nat) := h4
    simp only [Char.toNat] at h4'
    omega
  · rfl

theorem ne_of_isLower (c x : Char) (h : c.isLower = true) (hx : x.isLower = false) : c ≠ x := by
  intro he; subst he; rw [h] at hx; exact absurd hx (by simp)

theorem isLower_isAlpha (c : Char) (h : c.isLower = true) : c.isAlpha = true := by
  simp [Char.isAlpha, h]

theorem isLower_not_ws (c : Char) (h : c.isLower = true) : wsChar c = false := by
  have h1 := ne_of_isLower c ' ' h (by decide)
  have h2 := ne_of_isLower c '\t' h (by decide)
  have h3 := ne_of_isLower c '\n' h (by decide)
  have h4 := ne_of_isLower c '\r' h (by decide)
  have h5 := ne_of_isLower c '\x0b' h (by decide)
  have h6 := ne_of_isLower c '\x0c' h (by decide)
  simp [wsChar, h1, h2, h3, h4, h5, h6]

theorem isLower_not_quote (c : Char) (h : c.isLower = true) : quoteChar c = false := by
  have h1 := ne_of_isLower c '"' h (by decide)
  have h2 := ne_of_isLower c '\'' h (by decide)
  have h3 := ne_of_isLower c '`' h (by decide)
  simp [quoteChar, h1, h2, h3]

/-- Each of the nine allowed commit types is a nonempty all-lowercase
word. -/
theorem allowedType_lower (ty : String) (h : isAllowedType ty = true) :
    ty.toList ≠ [] ∧ ∀ c ∈ ty.toList, c.isLower = true := by
  have hm : ty ∈ allowedTypes := by
    simpa [isAllowedType] using h
  simp only [allowedTypes, List.mem_cons, List.not_mem_nil, or_false] at hm
  rcases hm with h | h | h | h | h | h | h | h | h <;> subst h <;> exact ⟨by decide, by decide⟩

/-- `endsL l [x] = false` when the last element differs from `x`. -/
theorem endsL_singleton_ne {l : List Char} {x : Char}
    (h : ∀ c, l.getLast? = some c → c ≠ x) : endsL l [x] = false := by
  unfold endsL
  cases hr : l.reverse with
  | nil => rfl
  | cons c rest =>
    have hc : l.getLast? = some c := by
      rw [← List.head?_reverse, hr]; rfl
    simp only [List.reverse_singleton, List.isPrefixOf, Bool.and_eq_false_iff,
      beq_eq_false_iff_ne]
    left
    intro he
    exact h c hc he.symm


theorem getLast?_append_right {l r : List Char} (h : r ≠ []) :
    (l ++ r).getLast? = r.getLast? := by
  rw [List.getLast?_append]
  cases hr : r.getLast? with
  | none => exact absurd (List.getLast?_eq_none_iff.mp hr) h
  | some c => rfl

theorem lowerL_fixed {l : List Char} (h : ∀ c ∈ l, c.isLower = true) : lowerL l = l := by
  unfold lowerL
  rw [List.map_congr_left (fun c hc => char_toLower_of_isLower c (h c hc))]
  exact List.map_id l

theorem dropLeadWs_fixed_head {l : List Char} (h : dropLeadWs l = l) :
    ∀ c, l.head? = some c → wsChar c = false := by
  intro c hc
  by_contra hw
  rw [Bool.not_eq_false] at hw
  cases l with
  | nil => exact absurd hc (by simp)
  | cons a rest =>
    have ha : a = c := by injection hc
    unfold dropLeadWs at h
    rw [List.dropWhile_cons_of_pos (by rw [ha, hw])] at h
    have := congrArg List.length h
    have hle := (List.dropWhile_suffix (l := rest) wsChar).length_le
    simp at this
    omega

theorem dropTrailWs_fixed_last {l : List Char} (h : dropTrailWs l = l) :
    ∀ c, l.getLast? = some c → wsChar c = false := by
  intro c hc
  by_contra hw
  rw [Bool.not_eq_false] at hw
  cases hr : l.reverse with
  | nil =>
    rw [← List.head?_reverse, hr] at hc
    exact absurd hc (by simp)
  | cons a rest =>
    have ha : a = c := by
      rw [← List.head?_reverse, hr] at hc
      injection hc
    have hd : dropTrailWs l = (rest.dropWhile wsChar).reverse := by
      unfold dropTrailWs
      rw [hr, List.dropWhile_cons_of_pos (by rw [ha, hw])]
    rw [h] at hd
    have h1 := congrArg List.length hd
    have h2 := congrArg List.length hr
    have hle := (List.dropWhile_suffix (l := rest) wsChar).length_le
    simp at h1 h2
    omega

theorem trimL_fixed_head {l : List Char} (h : trimL l = l) :
    ∀ c, l.head? = some c → wsChar c = false :=
  dropLeadWs_fixed_head (trimL_fixed_lead h)

theorem trimL_fixed_last {l : List Char} (h : trimL l = l) :
    ∀ c, l.getLast? = some c → wsChar c = false :=
  dropTrailWs_fixed_last (trimL_fixed_trail h)

theorem stripEdgeQuotes_eq_self {l : List Char}
    (h1 : ∀ c, l.head? = some c → quoteChar c = false)
    (h2 : ∀ c, l.getLast? = some c → quoteChar c = false) :
    stripEdgeQuotes l = l := by
  unfold stripEdgeQuotes
  rw [dropWhile_head_ne h1]
  rw [dropWhile_head_ne (by simpa using h2)]
  exact l.reverse_reverse

theorem isPrefixOf_head_ne {x : Char} {n l : List Char}
    (h : ∀ c, l.head? = some c → c ≠ x) : (x :: n).isPrefixOf l = false := by
  cases l with
  | nil => rfl
  | cons c t =>
    simp only [List.isPrefixOf, Bool.and_eq_false_iff, beq_eq_false_iff_ne]
    left
    exact fun he => h c rfl he.symm

theorem stripWrappingCodeFence_eq_self {s : String}
    (htrim : trimL s.toList = s.toList)
    (hhead : ∀ c, s.toList.head? = some c → c ≠ '`') :
    stripWrappingCodeFence s = s := by
  simp only [stripWrappingCodeFence]
  rw [htrim, isPrefixOf_head_ne hhead]
  simp only [Bool.false_eq_true, if_false]
  exact asString_toList s

theorem trimL_cons_space {l : List Char} (h : trimL l = l) : trimL (' ' :: l) = l := by
  unfold trimL
  have h1 : dropLeadWs (' ' :: l) = dropLeadWs l := by
    simp [dropLeadWs, List.dropWhile_cons_of_pos (by decide : wsChar ' ' = true)]
  unfold trimL at h
  rw [h1, trimL_fixed_lead (by unfold trimL; exact h)]
  rw [trimL_fixed_lead (by unfold trimL; exact h)] at h
  exact h

theorem parseTypedSubject_mkCC_none (ty desc : String)
    (htyne : ty.toList ≠ []) (htylow : ∀ c ∈ ty.toList, c.isLower = true)
    (hdne : desc.toList ≠ []) (hdtrim : trimL desc.toList = desc.toList) :
    parseTypedSubject (mkCC ty none desc).toList = some (ty, none, desc) := by
  have hml : (mkCC ty none desc).toList = ty.toList ++ ':' :: ' ' :: desc.toList := by
    unfold mkCC
    rw [toList_asString]
    simp
  simp only [parseTypedSubject, hml]
  rw [takeWhile_prefix_stop (fun x hx => isLower_isAlpha x (htylow x hx)) (by decide)]
  simp only [List.isEmpty_eq_true, htyne, if_neg, List.drop_left]
  show (if (' ' :: desc.toList).isEmpty = true then none
        else some ((lowerL ty.toList).asString, none, (trimL (' ' :: desc.toList)).asString))
      = some (ty, none, desc)
  rw [trimL_cons_space hdtrim, lowerL_fixed htylow]
  rfl

theorem parseTypedSubject_mkCC_some (ty s desc : String)
    (htyne : ty.toList ≠ []) (htylow : ∀ c ∈ ty.toList, c.isLower = true)
    (hdne : desc.toList ≠ []) (hdtrim : trimL desc.toList = desc.toList)
    (hsne : s.toList ≠ []) (hsnp : ∀ c ∈ s.toList, c ≠ ')')
    (hstrim : trimL s.toList = s.toList) :
    parseTypedSubject (mkCC ty (some s) desc).toList = some (ty, some s, desc) := by
  have hml : (mkCC ty (some s) desc).toList
      = ty.toList ++ '(' :: (s.toList ++ ')' :: ':' :: ' ' :: desc.toList) := by
    unfold mkCC
    rw [toList_asString]
    simp
  have htw : (s.toList ++ ')' :: ':' :: ' ' :: desc.toList).takeWhile
      (fun x => decide (x ≠ ')')) = s.toList :=
    takeWhile_prefix_stop (fun x hx => by simpa using hsnp x hx) (by decide)
  simp only [parseTypedSubject, hml]
  rw [takeWhile_prefix_stop (fun x hx => isLower_isAlpha x (htylow x hx)) (by decide)]
  simp only [List.isEmpty_eq_true, htyne, if_neg, List.drop_left]
  rw [htw, List.drop_left]
  simp only [if_neg hsne]
  show (if (' ' :: desc.toList).isEmpty = true then none
        else some ((lowerL ty.toList).asString, some (trimL s.toList).asString,
                   (trimL (' ' :: desc.toList)).asString))
      = some (ty, some s, desc)
  rw [trimL_cons_space hdtrim, lowerL_fixed htylow, hstrim]
  rfl

theorem parseSubjectCC_mkCC_some (ty s desc : String)
    (htyne : ty.toList ≠ []) (htylow : ∀ c ∈ ty.toList, c.isLower = true)
    (hdne : desc.toList ≠ [])
    (hsne : s.toList ≠ []) (hsnp : ∀ c ∈ s.toList, c ≠ ')') :
    parseSubjectCC (mkCC ty (some s) desc).toList =
      some (ty.toList, some s.toList, desc.toList) := by
  have hml : (mkCC ty (some s) desc).toList
      = ty.toList ++ '(' :: (s.toList ++ ')' :: ':' :: ' ' :: desc.toList) := by
    unfold mkCC
    rw [toList_asString]
    simp
  have hie : desc.toList.isEmpty = false := by
    cases h : desc.toList with
    | nil => exact absurd h hdne
    | cons a as => rfl
  have hsie : s.toList.isEmpty = false := by
    cases h : s.toList with
    | nil => exact absurd h hsne
    | cons a as => rfl
  have htw : (s.toList ++ ')' :: ':' :: ' ' :: desc.toList).takeWhile
      (fun x => decide (x ≠ ')')) = s.toList :=
    takeWhile_prefix_stop (fun x hx => by simpa using hsnp x hx) (by decide)
  simp only [parseSubjectCC, hml]
  rw [takeWhile_prefix_stop htylow (by decide)]
  simp only [List.isEmpty_eq_true, htyne, if_neg, List.drop_left]
  rw [htw, List.drop_left]
  have hcond : (wsChar ' ' && !desc.toList.isEmpty) = true := by
    simp only [Bool.and_eq_true, Bool.not_eq_true']
    exact ⟨by decide, hie⟩
  simp only [if_neg hsne]
  show (if (wsChar ' ' && !desc.toList.isEmpty) = true
        then some (ty.toList, some s.toList, desc.toList) else none)
      = some (ty.toList, some s.toList, desc.toList)
  rw [hcond]
  simp

theorem parseSubjectCC_mkCC_none (ty desc : String)
    (htyne : ty.toList ≠ []) (htylow : ∀ c ∈ ty.toList, c.isLower = true)
    (hdne : desc.toList ≠ []) :
    parseSubjectCC (mkCC ty none desc).toList =
      some (ty.toList, none, desc.toList) := by
  have hml : (mkCC ty none desc).toList = ty.toList ++ ':' :: ' ' :: desc.toList := by
    unfold mkCC
    rw [toList_asString]
    simp
  simp only [parseSubjectCC, hml]
  rw [takeWhile_prefix_stop htylow (by decide)]
  simp only [List.isEmpty_eq_true, htyne, if_neg, List.drop_left]
  have hcond : (wsChar ' ' && !desc.toList.isEmpty) = true := by
    have hie : desc.toList.isEmpty = false := by
      cases h : desc.toList with
      | nil => exact absurd h hdne
      | cons a as => rfl
    simp only [Bool.and_eq_true, Bool.not_eq_true']
    exact ⟨by decide, hie⟩
  show (if (wsChar ' ' && !desc.toList.isEmpty) = true
        then some (ty.toList, (none : Option (List Char)), desc.toList) else none)
      = some (ty.toList, none, desc.toList)
  rw [hcond]
  simp


set_option maxHeartbeats 1000000 in
theorem validate_mkCC_none (ty desc : String)
    (hty : isAllowedType ty = true)
    (hdne : desc.toList ≠ []) (hdtrim : trimL desc.toList = desc.toList)
    (hdchars : ∀ c ∈ desc.toList, c ≠ '\n' ∧ c ≠ '\r' ∧ c ≠ '`')
    (hdlast : ∀ c, desc.toList.getLast? = some c → c ≠ '.')
    (hlen : (mkCC ty none desc).length ≤ 72) :
    validateMessage (mkCC ty none desc) = .ok := by
  obtain ⟨htyne, htylow⟩ := allowedType_lower ty hty
  have hml : (mkCC ty none desc).toList = ty.toList ++ ':' :: ' ' :: desc.toList := by
    unfold mkCC; rw [toList_asString]; simp
  have hml2 : (mkCC ty none desc).toList = (ty.toList ++ [':', ' ']) ++ desc.toList := by
    rw [hml]; simp
  have hhead : ∀ c, (mkCC ty none desc).toList.head? = some c → c ∈ ty.toList := by
    intro c hc
    rw [hml, List.head?_append] at hc
    cases htl : ty.toList.head? with
    | none => exact absurd (by simpa using htl) htyne
    | some a =>
      rw [htl] at hc
      injection hc with hac
      exact List.mem_of_mem_head? (by rw [htl, hac]; rfl)
  have hlastd : ∀ c, (mkCC ty none desc).toList.getLast? = some c →
      desc.toList.getLast? = some c := by
    intro c hc
    rwa [hml2, getLast?_append_right hdne] at hc
  have hchars : ∀ c ∈ (mkCC ty none desc).toList, c ≠ '\n' ∧ c ≠ '\r' ∧ c ≠ '`' := by
    intro c hc
    rw [hml] at hc
    simp only [List.mem_append, List.mem_cons] at hc
    rcases hc with hc | hc | hc | hc
    · exact ⟨ne_of_isLower c '\n' (htylow c hc) (by decide),
             ne_of_isLower c '\r' (htylow c hc) (by decide),
             ne_of_isLower c '`' (htylow c hc) (by decide)⟩
    · subst hc; exact ⟨by decide, by decide, by decide⟩
    · subst hc; exact ⟨by decide, by decide, by decide⟩
    · exact hdchars c hc
  have hlast_nws : ∀ c, (mkCC ty none desc).toList.getLast? = some c → wsChar c = false :=
    fun c hc => trimL_fixed_last hdtrim c (hlastd c hc)
  have htrim : trimL (mkCC ty none desc).toList = (mkCC ty none desc).toList :=
    trimL_eq_self (fun c hc => isLower_not_ws c (htylow c (hhead c hc))) hlast_nws
  have hnorm : normalizeL (mkCC ty none desc).toList = (mkCC ty none desc).toList :=
    normalizeL_single (fun c hc => ⟨(hchars c hc).1, (hchars c hc).2.1⟩)
      (by rw [hml]; simp [htyne])
      (fun c hc => by
        have := hlast_nws c hc
        simp only [wsChar, Bool.or_eq_false_iff] at this
        simp [this.1.1.1.1.1, this.1.1.1.1.2])
  have hsplit : splitNL (mkCC ty none desc).toList = [(mkCC ty none desc).toList] :=
    splitNL_no_nl _ (fun c hc => (hchars c hc).1)
  have hie : (mkCC ty none desc).toList.isEmpty = false := by
    rw [hml]
    cases h : ty.toList with
    | nil => exact absurd h htyne
    | cons a as => rfl
  have hfencefree : hasSubstr (mkCC ty none desc).toList ['`', '`', '`'] = false :=
    hasSubstr_notin (fun hm => (hchars '`' hm).2.2 rfl)
  have hnper : endsL (mkCC ty none desc).toList ['.'] = false :=
    endsL_singleton_ne (fun c hc => hdlast c (hlastd c hc))
  have hparse := parseSubjectCC_mkCC_none ty desc htyne htylow hdne
  have hlen' : ¬ (mkCC ty none desc).toList.length > 72 := by
    have : (mkCC ty none desc).length = (mkCC ty none desc).toList.length := rfl
    omega
  unfold validateMessage validationSubject
  dsimp only
  rw [hnorm, hie]
  simp only [Bool.false_eq_true, if_false]
  rw [hfencefree]
  simp only [Bool.false_eq_true, if_false]
  rw [hsplit]
  dsimp only [List.headD]
  rw [htrim, hie]
  simp only [Bool.false_eq_true, if_false]
  rw [if_neg hlen', hnper]
  simp only [Bool.false_eq_true, if_false]
  rw [hparse]
  show (if isAllowedType (ty.toList).asString = true then ValidationResult.ok
        else ValidationResult.invalid ("Type must be one of: "
          ++ String.intercalate ", " allowedTypes))
      = ValidationResult.ok
  rw [asString_toList, hty]
  simp

set_option maxHeartbeats 1000000 in
theorem validate_mkCC_some (ty s desc : String)
    (hty : isAllowedType ty = true)
    (hsne : s.toList ≠ []) (hstrim : trimL s.toList = s.toList)
    (hschars : ∀ c ∈ s.toList, c ≠ ')' ∧ c ≠ '\n' ∧ c ≠ '\r' ∧ c ≠ '`')
    (hdne : desc.toList ≠ []) (hdtrim : trimL desc.toList = desc.toList)
    (hdchars : ∀ c ∈ desc.toList, c ≠ '\n' ∧ c ≠ '\r' ∧ c ≠ '`')
    (hdlast : ∀ c, desc.toList.getLast? = some c → c ≠ '.')
    (hlen : (mkCC ty (some s) desc).length ≤ 72) :
    validateMessage (mkCC ty (some s) desc) = .ok := by
  obtain ⟨htyne, htylow⟩ := allowedType_lower ty hty
  have hml : (mkCC ty (some s) desc).toList
      = ty.toList ++ '(' :: (s.toList ++ ')' :: ':' :: ' ' :: desc.toList) := by
    unfold mkCC; rw [toList_asString]; simp
  have hml2 : (mkCC ty (some s) desc).toList
      = (ty.toList ++ '(' :: (s.toList ++ [')', ':', ' '])) ++ desc.toList := by
    rw [hml]; simp
  have hhead : ∀ c, (mkCC ty (some s) desc).toList.head? = some c → c ∈ ty.toList := by
    intro c hc
    rw [hml, List.head?_append] at hc
    cases htl : ty.toList.head? with
    | none => exact absurd (by simpa using htl) htyne
    | some a =>
      rw [htl] at hc
      injection hc with hac
      exact List.mem_of_mem_head? (by rw [htl, hac]; rfl)
  have hlastd : ∀ c, (mkCC ty (some s) desc).toList.getLast? = some c →
      desc.toList.getLast? = some c := by
    intro c hc
    rwa [hml2, getLast?_append_right hdne] at hc
  have hchars : ∀ c ∈ (mkCC ty (some s) desc).toList, c ≠ '\n' ∧ c ≠ '\r' ∧ c ≠ '`' := by
    intro c hc
    rw [hml] at hc
    simp only [List.mem_append, List.mem_cons] at hc
    rcases hc with hc | hc | hc | hc | hc | hc | hc
    · exact ⟨ne_of_isLower c '\n' (htylow c hc) (by decide),
             ne_of_isLower c '\r' (htylow c hc) (by decide),
             ne_of_isLower c '`' (htylow c hc) (by decide)⟩
    · subst hc; exact ⟨by decide, by decide, by decide⟩
    · exact ⟨(hschars c hc).2.1, (hschars c hc).2.2.1, (hschars c hc).2.2.2⟩
    · subst hc; exact ⟨by decide, by decide, by decide⟩
    · subst hc; exact ⟨by decide, by decide, by decide⟩
    · subst hc; exact ⟨by decide, by decide, by decide⟩
    · exact hdchars c hc
  have hlast_nws : ∀ c, (mkCC ty (some s) desc).toList.getLast? = some c → wsChar c = false :=
    fun c hc => trimL_fixed_last hdtrim c (hlastd c hc)
  have htrim : trimL (mkCC ty (some s) desc).toList = (mkCC ty (some s) desc).toList :=
    trimL_eq_self (fun c hc => isLower_not_ws c (htylow c (hhead c hc))) hlast_nws
  have hnorm : normalizeL (mkCC ty (some s) desc).toList = (mkCC ty (some s) desc).toList :=
    normalizeL_single (fun c hc => ⟨(hchars c hc).1, (hchars c hc).2.1⟩)
      (by rw [hml]; simp [htyne])
      (fun c hc => by
        have := hlast_nws c hc
        simp only [wsChar, Bool.or_eq_false_iff] at this
        simp [this.1.1.1.1.1, this.1.1.1.1.2])
  have hsplit : splitNL (mkCC ty (some s) desc).toList = [(mkCC ty (some s) desc).toList] :=
    splitNL_no_nl _ (fun c hc => (hchars c hc).1)
  have hie : (mkCC ty (some s) desc).toList.isEmpty = false := by
    rw [hml]
    cases h : ty.toList with
    | nil => exact absurd h htyne
    | cons a as => rfl
  have hfencefree : hasSubstr (mkCC ty (some s) desc).toList ['`', '`', '`'] = false :=
    hasSubstr_notin (fun hm => (hchars '`' hm).2.2 rfl)
  have hnper : endsL (mkCC ty (some s) desc).toList ['.'] = false :=
    endsL_singleton_ne (fun c hc => hdlast c (hlastd c hc))
  have hparse := parseSubjectCC_mkCC_some ty s desc htyne htylow hdne hsne
    (fun c hc => (hschars c hc).1)
  have hlen' : ¬ (mkCC ty (some s) desc).toList.length > 72 := by
    have : (mkCC ty (some s) desc).length = (mkCC ty (some s) desc).toList.length := rfl
    omega
  unfold validateMessage validationSubject
  dsimp only
  rw [hnorm, hie]
  simp only [Bool.false_eq_true, if_false]
  rw [hfencefree]
  simp only [Bool.false_eq_true, if_false]
  rw [hsplit]
  dsimp only [List.headD]
  rw [htrim, hie]
  simp only [Bool.false_eq_true, if_false]
  rw [if_neg hlen', hnper]
  simp only [Bool.false_eq_true, if_false]
  rw [hparse]
  show (if isAllowedType (ty.toList).asString = true then ValidationResult.ok
        else ValidationResult.invalid ("Type must be one of: "
          ++ String.intercalate ", " allowedTypes))
      = ValidationResult.ok
  rw [asString_toList, hty]
  simp

set_option maxHeartbeats 1000000 in
theorem repair_mkCC_fixed_some (ty s desc d : String)
    (hty : isAllowedType ty = true)
    (hsne : s.toList ≠ []) (hstrim : trimL s.toList = s.toList)
    (hschars : ∀ c ∈ s.toList, c ≠ ')' ∧ c ≠ '\n' ∧ c ≠ '\r' ∧ c ≠ '`')
    (hdne : desc.toList ≠ []) (hdtrim : trimL desc.toList = desc.toList)
    (hdcoll : collapseWsL desc.toList = desc.toList)
    (hdchars : ∀ c ∈ desc.toList, c ≠ '\n' ∧ c ≠ '\r' ∧ c ≠ '`')
    (hdlast : ∀ c, desc.toList.getLast? = some c → c ≠ '.' ∧ c ≠ '"' ∧ c ≠ '\'') :
    repairMessage ⟨mkCC ty (some s) desc, d, none, none⟩
      = ⟨mkCC ty (some s) desc, false⟩ := by
  obtain ⟨htyne, htylow⟩ := allowedType_lower ty hty
  have hml : (mkCC ty (some s) desc).toList
      = ty.toList ++ '(' :: (s.toList ++ ')' :: ':' :: ' ' :: desc.toList) := by
    unfold mkCC; rw [toList_asString]; simp
  have hml2 : (mkCC ty (some s) desc).toList
      = (ty.toList ++ '(' :: (s.toList ++ [')', ':', ' '])) ++ desc.toList := by
    rw [hml]; simp
  have hhead : ∀ c, (mkCC ty (some s) desc).toList.head? = some c → c ∈ ty.toList := by
    intro c hc
    rw [hml, List.head?_append] at hc
    cases htl : ty.toList.head? with
    | none => exact absurd (by simpa using htl) htyne
    | some a =>
      rw [htl] at hc
      injection hc with hac
      exact List.mem_of_mem_head? (by rw [htl, hac]; rfl)
  have hlastd : ∀ c, (mkCC ty (some s) desc).toList.getLast? = some c →
      desc.toList.getLast? = some c := by
    intro c hc
    rwa [hml2, getLast?_append_right hdne] at hc
  have hchars : ∀ c ∈ (mkCC ty (some s) desc).toList, c ≠ '\n' ∧ c ≠ '\r' ∧ c ≠ '`' := by
    intro c hc
    rw [hml] at hc
    simp only [List.mem_append, List.mem_cons] at hc
    rcases hc with hc | hc | hc | hc | hc | hc | hc
    · exact ⟨ne_of_isLower c '\n' (htylow c hc) (by decide),
             ne_of_isLower c '\r' (htylow c hc) (by decide),
             ne_of_isLower c '`' (htylow c hc) (by decide)⟩
    · subst hc; exact ⟨by decide, by decide, by decide⟩
    · exact ⟨(hschars c hc).2.1, (hschars c hc).2.2.1, (hschars c hc).2.2.2⟩
    · subst hc; exact ⟨by decide, by decide, by decide⟩
    · subst hc; exact ⟨by decide, by decide, by decide⟩
    · subst hc; exact ⟨by decide, by decide, by decide⟩
    · exact hdchars c hc
  have hlast_nws : ∀ c, (mkCC ty (some s) desc).toList.getLast? = some c → wsChar c = false :=
    fun c hc => trimL_fixed_last hdtrim c (hlastd c hc)
  have htrim : trimL (mkCC ty (some s) desc).toList = (mkCC ty (some s) desc).toList :=
    trimL_eq_self (fun c hc => isLower_not_ws c (htylow c (hhead c hc))) hlast_nws
  have hnorm : normalizeL (mkCC ty (some s) desc).toList = (mkCC ty (some s) desc).toList :=
    normalizeL_single (fun c hc => ⟨(hchars c hc).1, (hchars c hc).2.1⟩)
      (by rw [hml]; simp [htyne])
      (fun c hc => by
        have := hlast_nws c hc
        simp only [wsChar, Bool.or_eq_false_iff] at this
        simp [this.1.1.1.1.1, this.1.1.1.1.2])
  have hfence : stripWrappingCodeFence (mkCC ty (some s) desc) = mkCC ty (some s) desc :=
    stripWrappingCodeFence_eq_self htrim
      (fun c hc => ne_of_isLower c '`' (htylow c (hhead c hc)) (by decide))
  have hquote : stripEdgeQuotes (mkCC ty (some s) desc).toList
      = (mkCC ty (some s) desc).toList :=
    stripEdgeQuotes_eq_self
      (fun c hc => isLower_not_quote c (htylow c (hhead c hc)))
      (fun c hc => by
        have h1 := hdlast c (hlastd c hc)
        have h2 := hdchars c (List.mem_of_mem_getLast? (hlastd c hc))
        simp [quoteChar, h1.2.1, h1.2.2, h2.2.2])
  have hsplit : splitNL (mkCC ty (some s) desc).toList = [(mkCC ty (some s) desc).toList] :=
    splitNL_no_nl _ (fun c hc => (hchars c hc).1)
  have hie : (mkCC ty (some s) desc).toList.isEmpty = false := by
    rw [hml]
    cases h : ty.toList with
    | nil => exact absurd h htyne
    | cons a as => rfl
  have hsie : s.isEmpty = false := by
    rw [Bool.eq_false_iff]
    intro hemp
    exact hsne (by rw [(String.isEmpty_iff s).mp hemp]; rfl)
  have hdesc : normalizeDescription desc = desc := by
    simp only [normalizeDescription]
    rw [hdtrim, endsL_singleton_ne (fun c hc => (hdlast c hc).1)]
    simp only [Bool.false_eq_true, if_false]
    rw [hdcoll]
    have hdie : desc.toList.isEmpty = false := by
      cases h : desc.toList with
      | nil => exact absurd h hdne
      | cons a as => rfl
    rw [hdie]
    show desc.toList.asString = desc
    exact asString_toList desc
  have hparse := parseTypedSubject_mkCC_some ty s desc htyne htylow hdne hdtrim hsne
    (fun c hc => (hschars c hc).1) hstrim
  have hfold : ty.toList ++ ('(' :: s.toList ++ [')']) ++ ':' :: ' ' :: desc.toList
      = (mkCC ty (some s) desc).toList := by
    rw [hml]; simp
  unfold repairMessage
  dsimp only
  rw [hfence, hnorm, hie]
  simp only [Bool.false_eq_true, if_false]
  rw [hsplit]
  dsimp only [List.headD, List.drop]
  rw [htrim, hquote, htrim]
  have hbody : normalizeL (joinNL ([] : List (List Char))) = [] := rfl
  rw [hbody]
  unfold repairSubjectParse
  rw [hparse]
  dsimp only [normalizeScope]
  rw [hty]
  simp only [if_true]
  rw [hdesc, hsie]
  simp only [Bool.not_false, if_true, List.isEmpty_nil, List.append_nil]
  rw [hfold, hnorm]
  simp only [bne_self_eq_false]
  exact congrArg (fun m => RepairResult.mk m false) (asString_toList (mkCC ty (some s) desc))

set_option maxHeartbeats 1000000 in
theorem repair_mkCC_fixed_none (ty desc d : String)
    (hty : isAllowedType ty = true)
    (hdne : desc.toList ≠ []) (hdtrim : trimL desc.toList = desc.toList)
    (hdcoll : collapseWsL desc.toList = desc.toList)
    (hdchars : ∀ c ∈ desc.toList, c ≠ '\n' ∧ c ≠ '\r' ∧ c ≠ '`')
    (hdlast : ∀ c, desc.toList.getLast? = some c → c ≠ '.' ∧ c ≠ '"' ∧ c ≠ '\'') :
    repairMessage ⟨mkCC ty none desc, d, none, none⟩ = ⟨mkCC ty none desc, false⟩ := by
  obtain ⟨htyne, htylow⟩ := allowedType_lower ty hty
  have hml : (mkCC ty none desc).toList = ty.toList ++ ':' :: ' ' :: desc.toList := by
    unfold mkCC; rw [toList_asString]; simp
  have hml2 : (mkCC ty none desc).toList = (ty.toList ++ [':', ' ']) ++ desc.toList := by
    rw [hml]; simp
  have hhead : ∀ c, (mkCC ty none desc).toList.head? = some c → c ∈ ty.toList := by
    intro c hc
    rw [hml, List.head?_append] at hc
    cases htl : ty.toList.head? with
    | none => exact absurd (by simpa using htl) htyne
    | some a =>
      rw [htl] at hc
      injection hc with hac
      exact List.mem_of_mem_head? (by rw [htl, hac]; rfl)
  have hlastd : ∀ c, (mkCC ty none desc).toList.getLast? = some c →
      desc.toList.getLast? = some c := by
    intro c hc
    rwa [hml2, getLast?_append_right hdne] at hc
  have hchars : ∀ c ∈ (mkCC ty none desc).toList, c ≠ '\n' ∧ c ≠ '\r' ∧ c ≠ '`' := by
    intro c hc
    rw [hml] at hc
    simp only [List.mem_append, List.mem_cons] at hc
    rcases hc with hc | hc | hc | hc
    · exact ⟨ne_of_isLower c '\n' (htylow c hc) (by decide),
             ne_of_isLower c '\r' (htylow c hc) (by decide),
             ne_of_isLower c '`' (htylow c hc) (by decide)⟩
    · subst hc; exact ⟨by decide, by decide, by decide⟩
    · subst hc; exact ⟨by decide, by decide, by decide⟩
    · exact hdchars c hc
  have hlast_nws : ∀ c, (mkCC ty none desc).toList.getLast? = some c → wsChar c = false :=
    fun c hc => trimL_fixed_last hdtrim c (hlastd c hc)
  have htrim : trimL (mkCC ty none desc).toList = (mkCC ty none desc).toList :=
    trimL_eq_self (fun c hc => isLower_not_ws c (htylow c (hhead c hc))) hlast_nws
  have hnorm : normalizeL (mkCC ty none desc).toList = (mkCC ty none desc).toList :=
    normalizeL_single (fun c hc => ⟨(hchars c hc).1, (hchars c hc).2.1⟩)
      (by rw [hml]; simp [htyne])
      (fun c hc => by
        have := hlast_nws c hc
        simp only [wsChar, Bool.or_eq_false_iff] at this
        simp [this.1.1.1.1.1, this.1.1.1.1.2])
  have hfence : stripWrappingCodeFence (mkCC ty none desc) = mkCC ty none desc :=
    stripWrappingCodeFence_eq_self htrim
      (fun c hc => ne_of_isLower c '`' (htylow c (hhead c hc)) (by decide))
  have hquote : stripEdgeQuotes (mkCC ty none desc).toList = (mkCC ty none desc).toList :=
    stripEdgeQuotes_eq_self
      (fun c hc => isLower_not_quote c (htylow c (hhead c hc)))
      (fun c hc => by
        have h1 := hdlast c (hlastd c hc)
        have h2 := hdchars c (List.mem_of_mem_getLast? (hlastd c hc))
        simp [quoteChar, h1.2.1, h1.2.2, h2.2.2])
  have hsplit : splitNL (mkCC ty none desc).toList = [(mkCC ty none desc).toList] :=
    splitNL_no_nl _ (fun c hc => (hchars c hc).1)
  have hie : (mkCC ty none desc).toList.isEmpty = false := by
    rw [hml]
    cases h : ty.toList with
    | nil => exact absurd h htyne
    | cons a as => rfl
  have hdesc : normalizeDescription desc = desc := by
    simp only [normalizeDescription]
    rw [hdtrim, endsL_singleton_ne (fun c hc => (hdlast c hc).1)]
    simp only [Bool.false_eq_true, if_false]
    rw [hdcoll]
    have hdie : desc.toList.isEmpty = false := by
      cases h : desc.toList with
      | nil => exact absurd h hdne
      | cons a as => rfl
    rw [hdie]
    show desc.toList.asString = desc
    exact asString_toList desc
  have hparse := parseTypedSubject_mkCC_none ty desc htyne htylow hdne hdtrim
  unfold repairMessage
  dsimp only
  rw [hfence, hnorm, hie]
  simp only [Bool.false_eq_true, if_false]
  rw [hsplit]
  dsimp only [List.headD, List.drop]
  rw [htrim, hquote, htrim]
  have hbody : normalizeL (joinNL ([] : List (List Char))) = [] := rfl
  rw [hbody]
  unfold repairSubjectParse
  rw [hparse]
  dsimp only [normalizeScope]
  rw [hty]
  simp only [if_true]
  rw [hdesc]
  simp only [List.isEmpty_nil, if_true, List.append_nil]
  rw [← hml, hnorm]
  simp only [bne_self_eq_false]
  exact congrArg (fun m => RepairResult.mk m false) (asString_toList (mkCC ty none desc))

end Commitgen

/-! ## Claim theorems -/
namespace Commitgen

/-- C1: End-to-end non-interactive run: for a staged diff touching only
documentation files, a backend whose chat reply is the JSON text
`{"message":"update readme content."}`, and options with `ci = true` and
`dryRun = true` (all preconditions passing), `runWorkflow` returns the
success variant with `committed = false`, `cancelled = false`,
`source = "repaired"`, and `message = "docs: update readme content"`. -/
theorem runWorkflow_docs_ci_dry_run :
    runWorkflow { ci := true, dryRun := true }
      { isGitRepo := true, hasStagedChanges := true, modelCheck := .ok (),
        stagedDiff := "diff --git a/README.md b/README.md\n--- a/README.md\n+++ b/README.md\n+Updated docs",
        commitOutcome := .ok () }
      (.ok "\x7b\"message\":\"update readme content.\"\x7d") []
    = some (.success { message := "docs: update readme content", source := .repaired,
                       committed := false, cancelled := false }, 0) := by
  decide

/-- C2: Fail-closed non-interactive disposition: with all preconditions
passing and in CI or dry-run mode, if the generated candidate fails
validation and the allow-invalid flag is not set, the workflow terminates
with the invalid-AI-output failure (whose exit status is 4) and the commit
collaborator is invoked zero times. -/
theorem runWorkflow_fail_closed (opts : WorkflowOptions) (env : WorkflowEnv)
    (raw : String) (script : List Step)
    (hmode : opts.ci = true ∨ opts.dryRun = true)
    (hrepo : env.isGitRepo = true) (hstaged : env.hasStagedChanges = true)
    (hmodel : env.modelCheck = .ok ())
    (hinvalid : (generateCandidate (clampDiff env.stagedDiff opts.maxChars) opts
        raw).validation.isOk = false)
    (hallow : opts.allowInvalid = false) :
    runWorkflow opts env (.ok raw) script
      = some (.failure (invalidOutputError
          (generateCandidate (clampDiff env.stagedDiff opts.maxChars) opts raw)), 0)
    ∧ (invalidOutputError (generateCandidate (clampDiff env.stagedDiff opts.maxChars)
        opts raw)).exitCode = .invalidAiOutput
    ∧ ExitCode.toNat .invalidAiOutput = 4 := by
  refine ⟨?_, rfl, rfl⟩
  have hcm : (opts.ci || opts.dryRun) = true := by
    rcases hmode with h | h <;> simp [h]
  unfold runWorkflow
  rw [hrepo, hstaged, hmodel]
  simp only [Bool.not_true, Bool.false_eq_true, if_false]
  rw [hcm]
  simp only [if_true]
  unfold runNonInteractive
  dsimp only
  rw [hinvalid, hallow]
  simp

/-- C2 witness: a concrete CI run whose candidate (`"hello world"` from
the model, empty diff) fails validation is rejected with exit status 4 and
zero commit invocations. -/
theorem runWorkflow_fail_closed_witness :
    runWorkflow { ci := true }
      { isGitRepo := true, hasStagedChanges := true, modelCheck := .ok (),
        stagedDiff := "", commitOutcome := .ok () }
      (.ok "hello world") []
      = some (.failure (invalidOutputError
          (generateCandidate (clampDiff "" (some 16000)) { ci := true } "hello world")), 0)
    ∧ (invalidOutputError (generateCandidate (clampDiff "" (some 16000))
        { ci := true } "hello world")).exitCode = .invalidAiOutput
    ∧ ExitCode.toNat .invalidAiOutput = 4 :=
  runWorkflow_fail_closed { ci := true }
    { isGitRepo := true, hasStagedChanges := true, modelCheck := .ok (),
      stagedDiff := "", commitOutcome := .ok () }
    "hello world" [] (Or.inl rfl) rfl rfl rfl (by decide) rfl

/-- C3 counterexample: in interactive mode, accepting an invalid candidate
does not re-present the same candidate — the loop generates a fresh one.
With two scripted accepts, the first candidate (`"hello world"`, invalid)
is discarded, a second candidate is generated from the next chat reply,
and that different message is committed. -/
theorem runInteractive_accept_invalid_regenerates_counterexample :
    runInteractive "" {} (.ok ())
      [⟨.ok "hello world", some .accept, none⟩,
       ⟨.ok "feat: add retries", some .accept, none⟩]
      = some (.success { message := "feat: add retries", source := .model,
                         committed := true, cancelled := false }, 1)
    ∧ (generateCandidate "" {} "hello world").message = "hello world"
    ∧ (generateCandidate "" {} "hello world").validation.isOk = false
    ∧ "hello world" ≠ "feat: add retries" := by
  exact ⟨by decide, by decide, by decide, by decide⟩

/-- C3 (amended): in interactive mode, when the user chooses accept (or
supplies a non-empty edited message), the message is re-validated; if it
is invalid and the allow-invalid override is not set, the orchestrator
reports the reason and loops back to the generating state — the run
continues exactly as the remaining script, no commit happens at this step,
and a fresh candidate is generated next. -/
theorem runInteractive_accept_invalid_loops_to_generation
    (diff : String) (opts : WorkflowOptions) (commit : Except String Unit)
    (raw : String) (e : Option String) (rest : List Step)
    (hallow : opts.allowInvalid = false) :
    ((generateCandidate diff opts raw).validation.isOk = false →
      runInteractive diff opts commit (⟨.ok raw, some .accept, e⟩ :: rest)
        = runInteractive diff opts commit rest)
    ∧ ∀ t : String, t ≠ "" → (validateMessage (normalizeMessage t)).isOk = false →
      runInteractive diff opts commit (⟨.ok raw, some .edit, some t⟩ :: rest)
        = runInteractive diff opts commit rest := by
  constructor
  · intro hinv
    rw [runInteractive]
    dsimp only
    unfold runInteractiveCommit
    have hv : validateMessage (generateCandidate diff opts raw).message
        = (generateCandidate diff opts raw).validation := by
      unfold generateCandidate
      dsimp only
    rw [hv]
    dsimp only
    rw [hinv, hallow]
    simp
  · intro t ht hinv
    rw [runInteractive]
    dsimp only
    rw [if_neg ht]
    unfold runInteractiveCommit
    dsimp only
    rw [hinv, hallow]
    simp

theorem chatAttempts_attempts_le (b : Nat → Except OllamaError String) :
    ∀ r a, (chatAttempts b a r).2.1 ≤ r + 1 := by
  intro r
  induction r with
  | zero =>
    intro a
    rw [chatAttempts]
    cases hb : b a with
    | ok s => simp
    | error e => simp
  | succ r ih =>
    intro a
    rw [chatAttempts]
    cases hb : b a with
    | ok s => simp
    | error e =>
      by_cases hr : shouldRetry e
      · simp only [hr, if_true]
        have := ih (a + 1)
        omega
      · simp [hr]

theorem chatAttempts_delays_lb (b : Nat → Except OllamaError String) :
    ∀ r a x, x ∈ (chatAttempts b a r).2.2 → 150 * (a + 1) ≤ x := by
  intro r
  induction r with
  | zero =>
    intro a x hx
    rw [chatAttempts] at hx
    cases hb : b a with
    | ok s => rw [hb] at hx; simp at hx
    | error e => rw [hb] at hx; simp at hx
  | succ r ih =>
    intro a x hx
    rw [chatAttempts] at hx
    cases hb : b a with
    | ok s => rw [hb] at hx; simp at hx
    | error e =>
      rw [hb] at hx
      by_cases hr : shouldRetry e
      · simp only [hr, if_true, List.mem_cons] at hx
        rcases hx with hx | hx
        · omega
        · have := ih (a + 1) x hx
          omega
      · simp [hr] at hx

theorem chatAttempts_delays_increasing (b : Nat → Except OllamaError String) :
    ∀ r a, List.Chain' (· < ·) (chatAttempts b a r).2.2 := by
  intro r
  induction r with
  | zero =>
    intro a
    rw [chatAttempts]
    cases hb : b a with
    | ok s => simp
    | error e => simp
  | succ r ih =>
    intro a
    rw [chatAttempts]
    cases hb : b a with
    | ok s => simp
    | error e =>
      by_cases hr : shouldRetry e
      · simp only [hr, if_true]
        refine List.chain'_cons'.mpr ⟨?_, ih (a + 1)⟩
        intro y hy
        have hm : y ∈ (chatAttempts b (a + 1) r).2.2 :=
          List.mem_of_mem_head? hy
        have := chatAttempts_delays_lb b r (a + 1) y hm
        omega
      · simp [hr]

/-- C3 witness: with the single-step scripts below (invalid candidate
`"hello world"`; an accept, respectively an invalid edit), the interactive
loop continues as the empty remaining script. -/
theorem runInteractive_accept_invalid_loops_witness :
    (runInteractive "" {} (.ok ()) [⟨.ok "hello world", some .accept, none⟩]
      = runInteractive "" {} (.ok ()) [])
    ∧ (runInteractive "" {} (.ok ()) [⟨.ok "hello world", some .edit, some "still bad"⟩]
      = runInteractive "" {} (.ok ()) []) :=
  ⟨(runInteractive_accept_invalid_loops_to_generation "" {} (.ok ()) "hello world"
      none [] rfl).1 (by decide),
   (runInteractive_accept_invalid_loops_to_generation "" {} (.ok ()) "hello world"
      none [] rfl).2 "still bad" (by decide) (by decide)⟩

/-- C7: extractor strategy order and total graceful fallback.
`extractMessageFromModelOutput` is total by construction; after one fence
strip, a whole-text JSON `message` string wins, else the first-`{`-to-
last-`}` substring's `message` string, else the fence-stripped text
itself, the winner going through one more fence strip and normalization;
`'{"message":123}'` (non-string field) yields the literal original
text. -/
theorem extractMessage_strategy_order :
    (extractMessageFromModelOutput "\x7b\"message\":123\x7d" = "\x7b\"message\":123\x7d")
    ∧ (∀ raw m, parseMessageFromJson (stripWrappingCodeFence raw) = some m →
        extractMessageFromModelOutput raw = normalizeMessage (stripWrappingCodeFence m))
    ∧ (∀ raw m, parseMessageFromJson (stripWrappingCodeFence raw) = none →
        parseMessageFromEmbeddedJson (stripWrappingCodeFence raw) = some m →
        extractMessageFromModelOutput raw = normalizeMessage (stripWrappingCodeFence m))
    ∧ (∀ raw, parseMessageFromJson (stripWrappingCodeFence raw) = none →
        parseMessageFromEmbeddedJson (stripWrappingCodeFence raw) = none →
        extractMessageFromModelOutput raw
          = normalizeMessage (stripWrappingCodeFence (stripWrappingCodeFence raw))) := by
  refine ⟨by decide, ?_, ?_, ?_⟩
  · intro raw m h1
    unfold extractMessageFromModelOutput
    dsimp only
    rw [h1]
    rfl
  · intro raw m h1 h2
    unfold extractMessageFromModelOutput
    dsimp only
    rw [h1, h2]
    rfl
  · intro raw h1 h2
    unfold extractMessageFromModelOutput
    dsimp only
    rw [h1, h2]
    rfl

/-- C7 witness: the three strategies exercised on concrete inputs — a
strict JSON object, JSON embedded in prose, and plain text. -/
theorem extractMessage_strategy_order_witness :
    extractMessageFromModelOutput "\x7b\"message\":\"docs: update readme\"\x7d" = "docs: update readme"
    ∧ extractMessageFromModelOutput "prefix \x7b\"message\":\"fix: handle crash\"\x7d suffix"
        = "fix: handle crash"
    ∧ extractMessageFromModelOutput "just plain text" = "just plain text" :=
  ⟨(extractMessage_strategy_order.2.1 "\x7b\"message\":\"docs: update readme\"\x7d"
      "docs: update readme" (by decide)).trans (by decide),
   (extractMessage_strategy_order.2.2.1 "prefix \x7b\"message\":\"fix: handle crash\"\x7d suffix"
      "fix: handle crash" (by decide) (by decide)).trans (by decide),
   (extractMessage_strategy_order.2.2.2 "just plain text" (by decide) (by decide)).trans
     (by decide)⟩

/-- C8: all-or-nothing type inference: `inferTypeFromDiff` collects the
new path of every `diff --git` header; no files means none; the categories
docs, test, ci, build are evaluated in that fixed order and the first one
for which every file qualifies wins; if no category covers all files the
result is none.  A diff touching only `README.md` yields docs; a diff
touching `src/a.ts` and `README.md` yields none. -/
theorem inferType_all_or_nothing :
    (inferTypeFromDiff "diff --git a/README.md b/README.md\n--- a/README.md\n+++ b/README.md\n+x"
      = some "docs")
    ∧ (inferTypeFromDiff "diff --git a/src/a.ts b/src/a.ts\n+x\ndiff --git a/README.md b/README.md\n+y"
      = none)
    ∧ (∀ d, diffFiles d = [] → inferTypeFromDiff d = none)
    ∧ (∀ d, diffFiles d ≠ [] → (diffFiles d).all isDocumentationFile = true →
        inferTypeFromDiff d = some "docs")
    ∧ (∀ d, (diffFiles d).all isDocumentationFile = false →
        (diffFiles d).all isTestFile = true → inferTypeFromDiff d = some "test")
    ∧ (∀ d, (diffFiles d).all isDocumentationFile = false →
        (diffFiles d).all isTestFile = false →
        (diffFiles d).all isCiFile = true → inferTypeFromDiff d = some "ci")
    ∧ (∀ d, (diffFiles d).all isDocumentationFile = false →
        (diffFiles d).all isTestFile = false →
        (diffFiles d).all isCiFile = false →
        (diffFiles d).all isBuildFile = true → inferTypeFromDiff d = some "build")
    ∧ (∀ d, (diffFiles d).all isDocumentationFile = false →
        (diffFiles d).all isTestFile = false →
        (diffFiles d).all isCiFile = false →
        (diffFiles d).all isBuildFile = false → inferTypeFromDiff d = none) := by
  refine ⟨by decide, by decide, ?_, ?_, ?_, ?_, ?_, ?_⟩
  · intro d h
    unfold inferTypeFromDiff
    dsimp only
    rw [h]
    rfl
  · intro d hne hall
    unfold inferTypeFromDiff
    dsimp only
    have hie : (diffFiles d).isEmpty = false := by
      cases h : diffFiles d with
      | nil => exact absurd h hne
      | cons a as => rfl
    rw [hie, hall]
    simp
  · intro d h1 h2
    unfold inferTypeFromDiff
    dsimp only
    have hie : (diffFiles d).isEmpty = false := by
      cases h : diffFiles d with
      | nil => rw [h] at h1; exact absurd h1 (by simp)
      | cons a as => rfl
    rw [hie, h1, h2]
    simp
  · intro d h1 h2 h3
    unfold inferTypeFromDiff
    dsimp only
    have hie : (diffFiles d).isEmpty = false := by
      cases h : diffFiles d with
      | nil => rw [h] at h1; exact absurd h1 (by simp)
      | cons a as => rfl
    rw [hie, h1, h2, h3]
    simp
  · intro d h1 h2 h3 h4
    unfold inferTypeFromDiff
    dsimp only
    have hie : (diffFiles d).isEmpty = false := by
      cases h : diffFiles d with
      | nil => rw [h] at h1; exact absurd h1 (by simp)
      | cons a as => rfl
    rw [hie, h1, h2, h3, h4]
    simp
  · intro d h1 h2 h3 h4
    unfold inferTypeFromDiff
    dsimp only
    by_cases hne : diffFiles d = []
    · rw [hne]; rfl
    · have hie : (diffFiles d).isEmpty = false := by
        cases h : diffFiles d with
        | nil => exact absurd h hne
        | cons a as => rfl
      rw [hie, h1, h2, h3, h4]
      simp

/-- C8 witness: the universal conjuncts instantiated — an empty diff has
no files; an all-docs diff infers docs; a docs+test mix yields none. -/
theorem inferType_all_or_nothing_witness :
    inferTypeFromDiff "" = none
    ∧ inferTypeFromDiff "diff --git a/docs/a.txt b/docs/a.txt\n+x" = some "docs"
    ∧ inferTypeFromDiff "diff --git a/README.md b/README.md\n+x\ndiff --git a/src/x.test.ts b/src/x.test.ts\n+y"
      = none :=
  ⟨inferType_all_or_nothing.2.2.1 "" (by decide),
   inferType_all_or_nothing.2.2.2.1 "diff --git a/docs/a.txt b/docs/a.txt\n+x"
     (by decide) (by decide),
   inferType_all_or_nothing.2.2.2.2.2.2.2
     "diff --git a/README.md b/README.md\n+x\ndiff --git a/src/x.test.ts b/src/x.test.ts\n+y"
     (by decide) (by decide) (by decide) (by decide)⟩

/-- C9: retry policy of the chat call: at most `retries + 1` attempts;
backoff delays strictly increase; a non-retryable first failure is thrown
immediately after one attempt; per-attempt outcomes classify as the code
does (timeout/unreachable retryable, HTTP errors retryable exactly for
5xx statuses, empty/invalid responses not retryable); a backend returning
HTTP 500 on the first two attempts and succeeding on the third, with
`retries = 2`, returns the reply after exactly 3 attempts with delays
150 ms and 300 ms, and persistent 500s exhaust the budget and raise a
retryable HTTP error. -/
theorem ollamaChat_retry_policy :
    (∀ b r, (ollamaChat r b).2.1 ≤ r + 1)
    ∧ (∀ b r, List.Chain' (· < ·) (ollamaChat r b).2.2)
    ∧ (∀ b r e, b 0 = .error e → shouldRetry e = false →
        ollamaChat r b = (.error e, 1, []))
    ∧ (∀ model t e, attemptResult model (.netTimeout t) = .error e → shouldRetry e = true)
    ∧ (∀ model e, attemptResult model .netUnreachable = .error e → shouldRetry e = true)
    ∧ (∀ model st txt e, attemptResult model (.httpError st txt) = .error e →
        (shouldRetry e = true ↔ 500 ≤ st))
    ∧ (∀ model c e, attemptResult model (.okContent c) = .error e → shouldRetry e = false)
    ∧ (ollamaChat 2 (fun i => attemptResult "llama3"
        (if i < 2 then .httpError 500 "boom" else .okContent (some "feat: x")))
      = (.ok "feat: x", 3, [150, 300]))
    ∧ (∀ e, (ollamaChat 2 (fun _ => attemptResult "llama3" (.httpError 500 "boom"))).1
          = .error e →
        e.code = .httpError ∧ e.retryable = true ∧ shouldRetry e = true)
    ∧ ((ollamaChat 2 (fun _ => attemptResult "llama3" (.httpError 500 "boom"))).2.1 = 3) := by
  refine ⟨?_, ?_, ?_, ?_, ?_, ?_, ?_, by rfl, ?_, by rfl⟩
  · intro b r
    exact chatAttempts_attempts_le b r 0
  · intro b r
    exact chatAttempts_delays_increasing b r 0
  · intro b r e hb hr
    unfold ollamaChat
    rw [chatAttempts, hb]
    cases r with
    | zero => rfl
    | succ r => simp [hr]
  · intro model t e h
    simp only [attemptResult] at h
    injection h with h'
    subst h'
    rfl
  · intro model e h
    simp only [attemptResult] at h
    injection h with h'
    subst h'
    rfl
  · intro model st txt e h
    simp only [attemptResult] at h
    split at h
    · rename_i hcond
      injection h with h'
      subst h'
      simp only [Bool.and_eq_true, decide_eq_true_eq] at hcond
      have h404 : st = 404 := hcond.1
      subst h404
      constructor
      · intro hs
        exact absurd hs (by simp [shouldRetry])
      · intro h5
        omega
    · injection h with h'
      subst h'
      by_cases h5 : 500 ≤ st <;> simp [shouldRetry, h5]
  · intro model c e h
    match c with
    | none =>
      simp only [attemptResult] at h
      injection h with h'
      subst h'
      rfl
    | some s =>
      simp only [attemptResult] at h
      split at h
      · injection h with h'
        subst h'
        rfl
      · exact absurd h (by simp)
  · intro e h
    have hval : (ollamaChat 2 (fun _ => attemptResult "llama3" (.httpError 500 "boom"))).1
        = .error { message := "Ollama error 500: boom", code := .httpError,
                   status := some 500, retryable := true,
                   hint := some "Check Ollama logs and confirm the local model can run." } := by
      rfl
    rw [hval] at h
    injection h with h'
    subst h'
    exact ⟨rfl, rfl, rfl⟩

/-- C9 witness: the bound, monotone-delay and fail-fast conjuncts
instantiated on a concrete behavior: a non-retryable empty-response error
on attempt 0 stops after one attempt with no delays. -/
theorem ollamaChat_retry_policy_witness :
    (ollamaChat 5 (fun _ => attemptResult "llama3" (.okContent none))).2.1 ≤ 6
    ∧ List.Chain' (· < ·)
        (ollamaChat 5 (fun _ => attemptResult "llama3" (.okContent none))).2.2
    ∧ ollamaChat 5 (fun _ => attemptResult "llama3" (.okContent none))
        = (.error { message := "Ollama returned an empty response.", code := .invalidResponse,
                    hint := some "Try a larger --timeout-ms, then retry generation." }, 1, [])
    ∧ shouldRetry { message := "Ollama request timed out (9ms).", code := .timeout,
                    hint := some "Ensure Ollama is running and/or increase --timeout-ms.",
                    retryable := true } = true :=
  ⟨ollamaChat_retry_policy.1 (fun _ => attemptResult "llama3" (.okContent none)) 5,
   ollamaChat_retry_policy.2.1 (fun _ => attemptResult "llama3" (.okContent none)) 5,
   ollamaChat_retry_policy.2.2.1 (fun _ => attemptResult "llama3" (.okContent none)) 5
     _ (by rfl) (by rfl),
   ollamaChat_retry_policy.2.2.2.1 "llama3" 9 _ (by rfl)⟩

/-- Length of the truncated-diff reassembly in `clampDiff`'s long branch:
head + marker + tail is exactly the limit. -/
theorem clampDiff_truncated_length (s : String) (limit : Nat)
    (h46 : diffTruncationMarker.length + 20 < limit) (hlen : limit < s.toList.length) :
    ((s.toList.take (max 1 (((limit - diffTruncationMarker.length) * 7) / 10)))
      ++ diffTruncationMarker.toList
      ++ s.toList.drop (s.toList.length
            - (max 1 ((limit - diffTruncationMarker.length)
                - max 1 (((limit - diffTruncationMarker.length) * 7) / 10))))).length
      = limit := by
  have hm : diffTruncationMarker.length = 26 := rfl
  set a := limit - diffTruncationMarker.length with ha
  have ha21 : 21 ≤ a := by omega
  have hda : (a * 7) / 10 ≤ a - 3 := by
    have h1 : a * 7 ≤ (a - 3) * 10 := by omega
    have h2 := Nat.div_le_div_right (c := 10) h1
    rwa [Nat.mul_div_cancel (a - 3) (by norm_num)] at h2
  have hhead : max 1 ((a * 7) / 10) ≤ a - 3 := by
    have : (1 : Nat) ≤ a - 3 := by omega
    omega
  have htail : max 1 (a - max 1 ((a * 7) / 10)) = a - max 1 ((a * 7) / 10) := by
    omega
  rw [htail]
  simp only [List.length_append, List.length_take, List.length_drop]
  have hml : diffTruncationMarker.toList.length = 26 := rfl
  rw [hml]
  omega

/-- C10 (implicit): `clampDiff` never exceeds its limit.  A non-finite
(`none`) or non-positive limit yields the empty string; an input at or
under the limit is returned unchanged; a limit of at most marker + 20
characters yields a plain prefix of exactly the limit; otherwise the
head + marker + tail reassembly has length exactly the limit; in every
case the result's length is at most `max 0 ⌊maxChars⌋`. -/
theorem clampDiff_respects_limit :
    (∀ s, clampDiff s none = "")
    ∧ (∀ s (i : Int), i ≤ 0 → clampDiff s (some i) = "")
    ∧ (∀ s (i : Int), s.length ≤ i.toNat → clampDiff s (some i) = s)
    ∧ (∀ s (i : Int), 0 < i.toNat → i.toNat ≤ diffTruncationMarker.length + 20 →
        i.toNat < s.length →
        clampDiff s (some i) = (s.toList.take i.toNat).asString
          ∧ (clampDiff s (some i)).length = i.toNat)
    ∧ (∀ s (i : Int), diffTruncationMarker.length + 20 < i.toNat → i.toNat < s.length →
        (clampDiff s (some i)).length = i.toNat)
    ∧ (∀ s mc, (clampDiff s mc).length ≤ (match mc with | none => 0 | some i => i.toNat)) := by
  have hcore : ∀ s (i : Int), diffTruncationMarker.length + 20 < i.toNat →
      i.toNat < s.length → (clampDiff s (some i)).length = i.toNat := by
    intro s i h46 hlen
    have hsl : s.toList.length = s.length := rfl
    unfold clampDiff
    dsimp only
    rw [if_neg (by omega), if_neg (by omega), if_neg (by omega)]
    show (List.asString _).length = _
    rw [length_asString]
    exact clampDiff_truncated_length s i.toNat h46 hlen
  refine ⟨fun s => rfl, ?_, ?_, ?_, hcore, ?_⟩
  · intro s i h
    unfold clampDiff
    dsimp only
    rw [if_pos (by omega)]
  · intro s i hle
    unfold clampDiff
    dsimp only
    by_cases h0 : i.toNat = 0
    · rw [if_pos h0]
      have : s.length = 0 := by omega
      have hnil : s.toList = [] := List.length_eq_zero.mp this
      have : s = "" := by
        cases s with
        | mk data => cases hnil; rfl
      rw [this]
    · rw [if_neg h0, if_pos (show s.toList.length ≤ i.toNat from hle)]
  · intro s i h0 h46 hlen
    have hsl : s.toList.length = s.length := rfl
    constructor
    · unfold clampDiff
      dsimp only
      rw [if_neg (by omega), if_neg (by omega), if_pos (by omega)]
    · unfold clampDiff
      dsimp only
      rw [if_neg (by omega), if_neg (by omega), if_pos (by omega)]
      rw [length_asString, List.length_take]
      omega
  · intro s mc
    match mc with
    | none => exact Nat.le_refl 0 |>.trans (by rfl) |>.trans (Nat.zero_le 0)
    | some i =>
      show (clampDiff s (some i)).length ≤ i.toNat
      by_cases h0 : i.toNat = 0
      · show (clampDiff s (some i)).length ≤ i.toNat
        unfold clampDiff
        dsimp only
        rw [if_pos h0]
        simp
      · have hsl : s.toList.length = s.length := rfl
        by_cases hle : s.length ≤ i.toNat
        · show (clampDiff s (some i)).length ≤ i.toNat
          unfold clampDiff
          dsimp only
          rw [if_neg h0, if_pos (show s.toList.length ≤ i.toNat from hle)]
          exact hle
        · by_cases h46 : i.toNat ≤ diffTruncationMarker.length + 20
          · show (clampDiff s (some i)).length ≤ i.toNat
            unfold clampDiff
            dsimp only
            rw [if_neg h0, if_neg (by omega), if_pos h46]
            rw [length_asString, List.length_take]
            omega
          · have := hcore s i (by omega) (by omega)
            omega

set_option maxRecDepth 4000 in
/-- C10 witness: concrete instances of every branch — non-finite and
negative limits, an unchanged short input, an exact prefix under a small
limit, and an exactly-at-limit truncation under a large one. -/
theorem clampDiff_respects_limit_witness :
    clampDiff "abc" none = ""
    ∧ clampDiff "abc" (some (-5)) = ""
    ∧ clampDiff "abc" (some 1000) = "abc"
    ∧ clampDiff "abcdefghijklmnopqrstuvwxyz" (some 10)
        = ("abcdefghijklmnopqrstuvwxyz".toList.take 10).asString
    ∧ (clampDiff (String.mk (List.replicate 200 'x')) (some 100)).length = 100
    ∧ (clampDiff (String.mk (List.replicate 200 'x')) (some 100)).length ≤ 100 :=
  ⟨clampDiff_respects_limit.1 "abc",
   clampDiff_respects_limit.2.1 "abc" (-5) (by norm_num),
   clampDiff_respects_limit.2.2.1 "abc" 1000 (by decide),
   (clampDiff_respects_limit.2.2.2.1 "abcdefghijklmnopqrstuvwxyz" 10 (by decide)
      (by decide) (by decide)).1,
   clampDiff_respects_limit.2.2.2.2.1 (String.mk (List.replicate 200 'x')) 100
      (by decide) (by decide),
   clampDiff_respects_limit.2.2.2.2.2 (String.mk (List.replicate 200 'x')) (some 100)⟩

/-- C5 counterexample: `"feat!: add api"` satisfies the subject grammar of
the validator (types in the allowed set, subject within bounds, no fence,
no trailing period), yet repair is not the identity on it: the breaking-
change marker is dropped, so `didRepair` is true. -/
theorem valid_message_repair_not_fixed_counterexample :
    validateMessage "feat!: add api" = .ok
    ∧ (repairMessage ⟨"feat!: add api", "", none, none⟩).didRepair = true
    ∧ (repairMessage ⟨"feat!: add api", "", none, none⟩).message = "feat: add api" :=
  ⟨by decide, by decide, by decide⟩

/-- C5 (amended): canonical Conventional Commits messages are repair fixed
points: for `type(scope)?: description` with an allowed type, a nonempty
trim-fixed scope free of `)`, newlines and backticks, and a nonempty
trim-fixed whitespace-collapsed description free of newlines and backticks
that does not end in a period or quote, with the subject at most 72
characters, `validate` succeeds and `repairMessage` (no forced
type/scope) reports `didRepair = false` for every diff. -/
theorem canonical_message_valid_and_repair_fixed
    (ty : String) (scope : Option String) (desc d : String)
    (hty : isAllowedType ty = true)
    (hscope : ∀ s, scope = some s → s.toList ≠ [] ∧ trimL s.toList = s.toList ∧
        ∀ c ∈ s.toList, c ≠ ')' ∧ c ≠ '\n' ∧ c ≠ '\r' ∧ c ≠ '`')
    (hdne : desc.toList ≠ []) (hdtrim : trimL desc.toList = desc.toList)
    (hdcoll : collapseWsL desc.toList = desc.toList)
    (hdchars : ∀ c ∈ desc.toList, c ≠ '\n' ∧ c ≠ '\r' ∧ c ≠ '`')
    (hdlast : ∀ c, desc.toList.getLast? = some c → c ≠ '.' ∧ c ≠ '"' ∧ c ≠ '\'')
    (hlen : (mkCC ty scope desc).length ≤ 72) :
    validateMessage (mkCC ty scope desc) = .ok
    ∧ (repairMessage ⟨mkCC ty scope desc, d, none, none⟩).didRepair = false := by
  cases scope with
  | none =>
    exact ⟨validate_mkCC_none ty desc hty hdne hdtrim hdchars
        (fun c hc => (hdlast c hc).1) hlen,
      by rw [repair_mkCC_fixed_none ty desc d hty hdne hdtrim hdcoll hdchars hdlast]⟩
  | some s =>
    obtain ⟨hsne, hstrim, hschars⟩ := hscope s rfl
    exact ⟨validate_mkCC_some ty s desc hty hsne hstrim hschars hdne hdtrim
        hdchars (fun c hc => (hdlast c hc).1) hlen,
      by rw [repair_mkCC_fixed_some ty s desc d hty hsne hstrim hschars hdne hdtrim
        hdcoll hdchars hdlast]⟩

/-- C5 witness: the amended fixed-point property at
`feat(api): add retries` with an arbitrary concrete diff. -/
theorem canonical_message_valid_and_repair_fixed_witness :
    (validateMessage (mkCC "feat" (some "api") "add retries") = .ok
      ∧ (repairMessage ⟨mkCC "feat" (some "api") "add retries",
          "diff --git a/x b/x", none, none⟩).didRepair = false)
    ∧ mkCC "feat" (some "api") "add retries" = "feat(api): add retries" :=
  ⟨canonical_message_valid_and_repair_fixed "feat" (some "api") "add retries"
      "diff --git a/x b/x" (by decide)
      (fun s0 hs0 => by cases hs0; exact ⟨by decide, by decide, by decide⟩)
      (by decide) (by decide) (by decide) (by decide) (by decide) (by decide),
   by decide⟩

set_option maxHeartbeats 1000000 in
theorem repairMessage_eq_specRepair (o : RepairOptions)
    (h : normalizeL (stripWrappingCodeFence o.message).toList ≠ []) :
    repairMessage o = specRepair o := by
  have hie : (normalizeL (stripWrappingCodeFence o.message).toList).isEmpty = false := by
    cases hl : normalizeL (stripWrappingCodeFence o.message).toList with
    | nil => exact absurd hl h
    | cons a as => rfl
  unfold repairMessage specRepair
  dsimp only
  rw [hie]
  simp only [Bool.false_eq_true, if_false]
  generalize normalizeL (stripWrappingCodeFence o.message).toList = original
  generalize repairSubjectParse (trimL (stripEdgeQuotes (trimL
      ((splitNL original).headD [])))) = parsed
  obtain ⟨pt, ps, pd⟩ := parsed
  generalize normalizeScope o.scope = nsc
  generalize inferTypeFromDiff o.diff = inf
  cases o.forcedType with
  | some t => cases nsc <;> rfl
  | none => cases pt <;> cases nsc <;> rfl

/-- C6: repair type/scope precedence and description fallback: on every
non-empty input, `repairMessage` equals the declarative formula
`specRepair` in which the final type is `forcedType`, else the type
detected in the subject, else the diff-inferred type (else none), and the
normalized explicit scope overrides the detected scope; the description
is trimmed, loses one trailing period, has internal whitespace collapsed,
and falls back to `"update project files"` when empty; repairing
`"fix parser edge case."` with forced type `refactor` and scope
`core api` yields `"refactor(core-api): fix parser edge case"` for every
diff. -/
theorem repair_precedence_and_description :
    (∀ o : RepairOptions, normalizeL (stripWrappingCodeFence o.message).toList ≠ [] →
        repairMessage o = specRepair o)
    ∧ normalizeDescription "" = "update project files"
    ∧ normalizeDescription "   " = "update project files"
    ∧ normalizeDescription " fix  parser edge case. " = "fix parser edge case"
    ∧ (∀ d, repairMessage ⟨"fix parser edge case.", d, some "refactor", some "core api"⟩
        = ⟨"refactor(core-api): fix parser edge case", true⟩) := by
  refine ⟨repairMessage_eq_specRepair, by decide, by decide, by decide, ?_⟩
  intro d
  have hne : normalizeL (stripWrappingCodeFence
      (RepairOptions.mk "fix parser edge case." d (some "refactor")
        (some "core api")).message).toList ≠ [] := by
    show normalizeL (stripWrappingCodeFence "fix parser edge case.").toList ≠ []
    decide
  rw [repairMessage_eq_specRepair _ hne]
  unfold specRepair
  dsimp only
  generalize inferTypeFromDiff d = inf
  simp only [Option.orElse]
  decide

/-- C6 witness: the refinement instantiated at a concrete repair input and
the forced-type/scope example at a concrete diff. -/
theorem repair_precedence_and_description_witness :
    repairMessage ⟨"FEAT - add retries.", "diff --git a/README.md b/README.md", none, none⟩
      = specRepair ⟨"FEAT - add retries.", "diff --git a/README.md b/README.md", none, none⟩
    ∧ repairMessage ⟨"fix parser edge case.", "diff --git a/a b/a", some "refactor",
        some "core api"⟩
      = ⟨"refactor(core-api): fix parser edge case", true⟩ :=
  ⟨repair_precedence_and_description.1
      ⟨"FEAT - add retries.", "diff --git a/README.md b/README.md", none, none⟩ (by decide),
   repair_precedence_and_description.2.2.2.2 "diff --git a/a b/a"⟩

/-- C4 counterexample: not every 80-character string makes
`validate("feat: " + s)` fail on subject length — an 80-character string
containing a newline can leave a short, perfectly valid subject line.
Here `s = "ok\n" ++ 77 units of "x"` has length 80, yet validation
succeeds. -/
theorem validator_eighty_char_counterexample :
    ("ok\nxxxxxxxxxxxxxxxxxxxxxxxxxxxxxxxxxxxxxxxxxxxxxxxxxxxxxxxxxxxxxxxxxxxxxxxxxxxxx" : String).length = 80
    ∧ validateMessage ("feat: " ++ "ok\nxxxxxxxxxxxxxxxxxxxxxxxxxxxxxxxxxxxxxxxxxxxxxxxxxxxxxxxxxxxxxxxxxxxxxxxxxxxxx") = .ok :=
  ⟨by decide, by decide⟩

/-- C4 (amended): validator behaviour and check order: validation
normalizes first and fails on an empty result, then on a triple-backtick
fence, then takes the trimmed first line as subject and fails in order on
empty subject, subject length over 72, and trailing period, then fails
`"Not Conventional Commits format"` when the subject does not match
`type(scope)?!?: description`, then fails on a type outside the fixed set,
and otherwise succeeds; in particular `validate ("feat: " ++ s)` for any
80-character single-line string `s` (no CR, no backtick, not ending in
whitespace) is invalid with the subject-length reason. -/
theorem validator_check_order :
    (∀ m, normalizeL m.toList = [] → validateMessage m = .invalid "Message is empty")
    ∧ (∀ m, normalizeL m.toList ≠ [] →
        hasSubstr (normalizeL m.toList) ['\x60', '\x60', '\x60'] = true →
        validateMessage m = .invalid "No markdown/code fences")
    ∧ (∀ m, normalizeL m.toList ≠ [] →
        hasSubstr (normalizeL m.toList) ['\x60', '\x60', '\x60'] = false →
        validationSubject (normalizeL m.toList) = [] →
        validateMessage m = .invalid "Subject line is empty")
    ∧ (∀ m, normalizeL m.toList ≠ [] →
        hasSubstr (normalizeL m.toList) ['\x60', '\x60', '\x60'] = false →
        validationSubject (normalizeL m.toList) ≠ [] →
        72 < (validationSubject (normalizeL m.toList)).length →
        validateMessage m = .invalid "Subject line > 72 chars")
    ∧ (∀ m, normalizeL m.toList ≠ [] →
        hasSubstr (normalizeL m.toList) ['\x60', '\x60', '\x60'] = false →
        validationSubject (normalizeL m.toList) ≠ [] →
        (validationSubject (normalizeL m.toList)).length ≤ 72 →
        endsL (validationSubject (normalizeL m.toList)) ['.'] = true →
        validateMessage m = .invalid "Subject should not end with a period")
    ∧ (∀ m, normalizeL m.toList ≠ [] →
        hasSubstr (normalizeL m.toList) ['\x60', '\x60', '\x60'] = false →
        validationSubject (normalizeL m.toList) ≠ [] →
        (validationSubject (normalizeL m.toList)).length ≤ 72 →
        endsL (validationSubject (normalizeL m.toList)) ['.'] = false →
        parseSubjectCC (validationSubject (normalizeL m.toList)) = none →
        validateMessage m = .invalid "Not Conventional Commits format")
    ∧ (∀ m ty sc dsc, normalizeL m.toList ≠ [] →
        hasSubstr (normalizeL m.toList) ['\x60', '\x60', '\x60'] = false →
        validationSubject (normalizeL m.toList) ≠ [] →
        (validationSubject (normalizeL m.toList)).length ≤ 72 →
        endsL (validationSubject (normalizeL m.toList)) ['.'] = false →
        parseSubjectCC (validationSubject (normalizeL m.toList)) = some (ty, sc, dsc) →
        isAllowedType ty.asString = false →
        validateMessage m
          = .invalid ("Type must be one of: " ++ String.intercalate ", " allowedTypes))
    ∧ (∀ m ty sc dsc, normalizeL m.toList ≠ [] →
        hasSubstr (normalizeL m.toList) ['\x60', '\x60', '\x60'] = false →
        validationSubject (normalizeL m.toList) ≠ [] →
        (validationSubject (normalizeL m.toList)).length ≤ 72 →
        endsL (validationSubject (normalizeL m.toList)) ['.'] = false →
        parseSubjectCC (validationSubject (normalizeL m.toList)) = some (ty, sc, dsc) →
        isAllowedType ty.asString = true →
        validateMessage m = .ok)
    ∧ (∀ s : String, s.toList.length = 80 →
        (∀ c ∈ s.toList, c ≠ '\n' ∧ c ≠ '\r' ∧ c ≠ '\x60') →
        (∀ c, s.toList.getLast? = some c → wsChar c = false) →
        validateMessage ("feat: " ++ s) = .invalid "Subject line > 72 chars") := by
  have hstep : ∀ m, normalizeL m.toList ≠ [] →
      hasSubstr (normalizeL m.toList) ['\x60', '\x60', '\x60'] = false →
      validateMessage m
        = (if (validationSubject (normalizeL m.toList)).isEmpty = true
           then .invalid "Subject line is empty"
           else if (validationSubject (normalizeL m.toList)).length > 72
           then .invalid "Subject line > 72 chars"
           else if endsL (validationSubject (normalizeL m.toList)) ['.'] = true
           then .invalid "Subject should not end with a period"
           else match parseSubjectCC (validationSubject (normalizeL m.toList)) with
             | none => .invalid "Not Conventional Commits format"
             | some (ty, _, _) =>
               if isAllowedType ty.asString = true then .ok
               else .invalid ("Type must be one of: " ++ String.intercalate ", " allowedTypes)) := by
    intro m hne hfence
    have hie : (normalizeL m.toList).isEmpty = false := by
      cases hl : normalizeL m.toList with
      | nil => exact absurd hl hne
      | cons a as => rfl
    unfold validateMessage
    dsimp only
    rw [hie]
    simp only [Bool.false_eq_true, if_false]
    rw [hfence]
    simp only [Bool.false_eq_true, if_false]
  have hieOf : ∀ l : List Char, l ≠ [] → l.isEmpty = false := by
    intro l hl
    cases h : l with
    | nil => exact absurd h hl
    | cons a as => rfl
  refine ⟨?_, ?_, ?_, ?_, ?_, ?_, ?_, ?_, ?_⟩
  · intro m h
    have hie : (normalizeL m.toList).isEmpty = true := by rw [h]; rfl
    unfold validateMessage
    dsimp only
    rw [hie]
    simp
  · intro m hne hfence
    have hie : (normalizeL m.toList).isEmpty = false := hieOf _ hne
    unfold validateMessage
    dsimp only
    rw [hie]
    simp only [Bool.false_eq_true, if_false]
    rw [hfence]
    simp
  · intro m hne hfence hsub
    rw [hstep m hne hfence]
    rw [show (validationSubject (normalizeL m.toList)).isEmpty = true from by rw [hsub]; rfl]
    simp
  · intro m hne hfence hsub hlen
    rw [hstep m hne hfence]
    rw [hieOf _ hsub]
    simp only [Bool.false_eq_true, if_false]
    rw [if_pos hlen]
  · intro m hne hfence hsub hlen hper
    rw [hstep m hne hfence]
    rw [hieOf _ hsub]
    simp only [Bool.false_eq_true, if_false]
    rw [if_neg (by omega), hper]
    simp
  · intro m hne hfence hsub hlen hper hparse
    rw [hstep m hne hfence]
    rw [hieOf _ hsub]
    simp only [Bool.false_eq_true, if_false]
    rw [if_neg (by omega), hper]
    simp only [Bool.false_eq_true, if_false]
    rw [hparse]
  · intro m ty sc dsc hne hfence hsub hlen hper hparse hty
    rw [hstep m hne hfence]
    rw [hieOf _ hsub]
    simp only [Bool.false_eq_true, if_false]
    rw [if_neg (by omega), hper]
    simp only [Bool.false_eq_true, if_false]
    rw [hparse]
    dsimp only
    rw [hty]
    simp
  · intro m ty sc dsc hne hfence hsub hlen hper hparse hty
    rw [hstep m hne hfence]
    rw [hieOf _ hsub]
    simp only [Bool.false_eq_true, if_false]
    rw [if_neg (by omega), hper]
    simp only [Bool.false_eq_true, if_false]
    rw [hparse]
    dsimp only
    rw [hty]
    simp
  · intro s hlen hchars hlast
    have hsl : ("feat: " ++ s).toList = "feat: ".toList ++ s.toList := by
      exact rfl
    have hsne : s.toList ≠ [] := by
      intro h
      rw [h] at hlen
      simp at hlen
    have hmchars : ∀ c ∈ ("feat: " ++ s).toList, c ≠ '\n' ∧ c ≠ '\r' := by
      intro c hc
      rw [hsl] at hc
      rcases List.mem_append.mp hc with hc | hc
      · have hc6 : c ∈ ['f', 'e', 'a', 't', ':', ' '] := hc
        simp only [List.mem_cons, List.not_mem_nil, or_false] at hc6
        rcases hc6 with h | h | h | h | h | h
        all_goals subst h
        all_goals exact ⟨by decide, by decide⟩
      · exact ⟨(hchars c hc).1, (hchars c hc).2.1⟩
    have hlastm : ∀ c, ("feat: " ++ s).toList.getLast? = some c → wsChar c = false := by
      intro c hc
      rw [hsl, getLast?_append_right hsne] at hc
      exact hlast c hc
    have hnorm : normalizeL ("feat: " ++ s).toList = ("feat: " ++ s).toList := by
      refine normalizeL_single hmchars ?_ ?_
      · rw [hsl]
        simp
      · intro c hc
        have hw := hlastm c hc
        simp only [wsChar, Bool.or_eq_false_iff] at hw
        simp [hw.1.1.1.1.1, hw.1.1.1.1.2]
    have hnb : '\x60' ∉ ("feat: " ++ s).toList := by
      rw [hsl]
      intro hm
      rcases List.mem_append.mp hm with hm | hm
      · have hm6 : ('\x60' : Char) ∈ ['f', 'e', 'a', 't', ':', ' '] := hm
        simp at hm6
      · exact (hchars _ hm).2.2 rfl
    have hfence : hasSubstr ("feat: " ++ s).toList ['\x60', '\x60', '\x60'] = false := by
      exact hasSubstr_notin hnb
    have hsplit : splitNL ("feat: " ++ s).toList = [("feat: " ++ s).toList] := by
      exact splitNL_no_nl _ (fun c hc => (hmchars c hc).1)
    have hheadm : ∀ c, ("feat: " ++ s).toList.head? = some c → wsChar c = false := by
      intro c hc
      rw [hsl] at hc
      have hf : ("feat: ".toList ++ s.toList).head? = some 'f' := by
        exact rfl
      rw [hf] at hc
      injection hc with hc
      subst hc
      decide
    have hsubj : validationSubject (normalizeL ("feat: " ++ s).toList)
        = ("feat: " ++ s).toList := by
      unfold validationSubject
      rw [hnorm, hsplit]
      dsimp only [List.headD]
      exact trimL_eq_self hheadm hlastm
    have hlen86 : 72 < (("feat: " ++ s).toList).length := by
      rw [hsl]
      simp only [List.length_append, hlen]
      decide
    have hie : (normalizeL ("feat: " ++ s).toList) ≠ [] := by
      rw [hnorm, hsl]
      simp
    have hstep2 := hstep ("feat: " ++ s) hie (by rw [hnorm]; exact hfence)
    rw [hstep2, hsubj]
    have hne2 : ("feat: " ++ s).toList ≠ [] := by
      rw [hsl]
      simp
    rw [hieOf _ hne2]
    simp only [Bool.false_eq_true, if_false]
    rw [if_pos hlen86]

/-- C4 witness: each stage of the ordered validator exercised concretely,
and the amended 80-character instance at a string of 80 letters. -/
theorem validator_check_order_witness :
    validateMessage "" = .invalid "Message is empty"
    ∧ validateMessage "feat: has ```fence``` inside" = .invalid "No markdown/code fences"
    ∧ validateMessage ("feat: " ++ String.mk (List.replicate 80 'y'))
        = .invalid "Subject line > 72 chars"
    ∧ validateMessage "feat: ends badly." = .invalid "Subject should not end with a period"
    ∧ validateMessage "no type here" = .invalid "Not Conventional Commits format"
    ∧ validateMessage "wrong: type" = .invalid ("Type must be one of: "
        ++ String.intercalate ", " allowedTypes)
    ∧ validateMessage "feat(api)!: ship it" = .ok :=
  ⟨validator_check_order.1 "" (by decide),
   validator_check_order.2.1 "feat: has ```fence``` inside" (by decide) (by decide),
   validator_check_order.2.2.2.2.2.2.2.2 (String.mk (List.replicate 80 'y'))
     (by decide) (by decide) (by decide),
   validator_check_order.2.2.2.2.1 "feat: ends badly." (by decide) (by decide) (by decide)
     (by decide) (by decide),
   validator_check_order.2.2.2.2.2.1 "no type here" (by decide) (by decide) (by decide)
     (by decide) (by decide) (by decide),
   validator_check_order.2.2.2.2.2.2.1 "wrong: type" "wrong".toList none
     "type".toList (by decide) (by decide) (by decide) (by decide) (by decide)
     (by decide) (by decide),
   validator_check_order.2.2.2.2.2.2.2.1 "feat(api)!: ship it" "feat".toList
     (some "api".toList) "ship it".toList (by decide) (by decide) (by decide) (by decide)
     (by decide) (by decide) (by decide)⟩

end Commitgen
